import Mathlib

/-!
# Verification of the RobotAnimation kinematics core

A shallow embedding, over exact arithmetic, of the pose-animation library
shipped in `libs/zea-kinematics/dist/index.cjs.js`: the keyframe track and
its undo/redo change objects, the track sampler, the attachment constraint,
the explode-parts operator, the connectivity guards of the mechanism
operators, and the two-bone (triangle) IK solver.

Conventions:
* JS numbers are modelled as `ℚ` where the code only adds, multiplies,
  divides and compares, and as `ℝ` where the code calls `sqrt`, `acos`,
  `sin`, `cos` or `π` (the triangle solver, gears angles, piston rod).
* A JS function that can throw (out-of-bounds index, reading a key of an
  empty track) returns `Option`; `none` is the thrown `TypeError`.
* Pose (`Xfo`) values and quaternion operations live in the external
  `@zeainc/zea-engine` package, outside this repository; they are modelled
  from the spec at their interface boundary: poses compose by
  multiplication and are invertible (a group), axis-angle rotation is the
  Rodrigues rotation, `linStep` is the clamped linear step.
-/

namespace RobotAnim

/-! ## Keyframe tracks (`BaseTrack`)

`BaseTrack` stores `this.keys`, an array of `{time, value}` records.
`TKey` is one such record; a track is a `List (TKey V)`. -/

/-- One keyframe of a track: the `{time, value}` record of `BaseTrack.keys`. -/
structure TKey (V : Type) where
  time : ℚ
  value : V
deriving DecidableEq, Repr

instance {V : Type} [Inhabited V] : Inhabited (TKey V) := ⟨⟨0, default⟩⟩

/-- Strictly-increasing key times: the spec's Track invariant
("ordered sequence ... strictly increasing by time, unique times"). -/
def TimeSorted {V : Type} (keys : List (TKey V)) : Prop :=
  keys.Pairwise (fun a b => a.time < b.time)

instance {V : Type} (keys : List (TKey V)) : Decidable (TimeSorted keys) := by
  unfold TimeSorted; infer_instance

/-- The scan of `BaseTrack.addKey`'s insertion loop
(`for (let i = 1; i < numKeys; i++) if (keys[i].time > time) splice(i, ...)`);
`i` is the absolute index of the head of `ks` in the full key array.
Returns the transformed remainder of the array plus the insertion index, or
`none` when the loop falls through without inserting. -/
def addKeyLoop {V : Type} (time : ℚ) (value : V) : List (TKey V) → ℕ → Option (List (TKey V) × ℕ)
  | [], _ => none
  | k :: ks, i =>
    if time < k.time then some (⟨time, value⟩ :: k :: ks, i)
    else (addKeyLoop time value ks (i + 1)).map fun p => (k :: p.1, p.2)

/-- `BaseTrack.addKey(time, value)`: prepend when the time is before the
first key, append when after the last, otherwise splice before the first
later key.  Returns the new key array and the index the code returns; the
index is `none` exactly when no branch inserts (the JS function then
returns `undefined` and leaves the array unchanged). -/
def addKey {V : Type} (keys : List (TKey V)) (time : ℚ) (value : V) :
    List (TKey V) × Option ℕ :=
  match keys with
  | [] => ([⟨time, value⟩], some 0)
  | k0 :: rest =>
    if time < k0.time then (⟨time, value⟩ :: k0 :: rest, some 0)
    else if time > ((k0 :: rest).getLastD k0).time then
      (k0 :: rest ++ [⟨time, value⟩], some (k0 :: rest).length)
    else
      match addKeyLoop time value rest 1 with
      | some (l, i) => (k0 :: l, some i)
      | none => (k0 :: rest, none)

/-- Helper predicate for stating where `addKey` inserts: keys whose time is
strictly below the inserted time. -/
def beforeTime {V : Type} (time : ℚ) (k : TKey V) : Bool := decide (k.time < time)

/-- `BaseTrack.removeKey(index)`: `this.keys.splice(index, 1)`. -/
def removeKey {V : Type} (keys : List (TKey V)) (index : ℕ) : List (TKey V) :=
  keys.take index ++ keys.drop (index + 1)

/-- `BaseTrack.setKeyValue(index, value)`: `this.keys[index].value = value`.
Out of bounds the JS throws; callers below only reach it in bounds. -/
def setKeyValue {V : Type} : List (TKey V) → ℕ → V → List (TKey V)
  | [], _, _ => []
  | k :: ks, 0, v => ⟨k.time, v⟩ :: ks
  | k :: ks, n + 1, v => k :: setKeyValue ks n v

/-- `BaseTrack.getKeyValue(index)` as a partial read. -/
def getKeyValue? {V : Type} (keys : List (TKey V)) (index : ℕ) : Option V :=
  (keys.get? index).map (·.value)

/-- `BaseTrack.getKeyTime(index)` as a partial read. -/
def getKeyTime? {V : Type} (keys : List (TKey V)) (index : ℕ) : Option ℚ :=
  (keys.get? index).map (·.time)

/-- The `{keyIndex, lerp}` record returned by `BaseTrack.findKeyAndLerp`.
`keyIndex` is an integer because the empty-track branch returns `-1`. -/
structure KeyAndLerp where
  keyIndex : ℤ
  lerp : ℚ
deriving DecidableEq, Repr

/-- The scan of `BaseTrack.findKeyAndLerp`'s loop: `prev` is `keys[i-1]`,
`ks` the keys from absolute index `i` on.  Returns `none` when the loop
falls through (the JS function then returns `undefined`). -/
def findKeyLoop {V : Type} (time : ℚ) : TKey V → List (TKey V) → ℕ → Option KeyAndLerp
  | _, [], _ => none
  | prev, k :: ks, i =>
    if time < k.time then
      some ⟨(i : ℤ) - 1, (time - prev.time) / (k.time - prev.time)⟩
    else findKeyLoop time k ks (i + 1)

/-- `BaseTrack.findKeyAndLerp(time)`: `{-1, 0}` on an empty track, clamp to
the first or last key outside the range, otherwise locate the bracketing
pair. -/
def findKeyAndLerp {V : Type} (keys : List (TKey V)) (time : ℚ) : Option KeyAndLerp :=
  match keys with
  | [] => some ⟨-1, 0⟩
  | k0 :: rest =>
    if time ≤ k0.time then some ⟨0, 0⟩
    else if time ≥ ((k0 :: rest).getLastD k0).time then
      some ⟨((k0 :: rest).length : ℤ) - 1, 0⟩
    else findKeyLoop time k0 rest 1

/-! ## Undo/redo change objects

`AddKeyChange`, `KeyChange` and `RemoveKeyChange` perform their edit in the
constructor and store what `undo`/`redo` need.  `ChangeReq` is the
constructor call; `AppliedChange` is the constructed object's stored state.
A constructor that would throw (an out-of-bounds index read) is `none`. -/

/-- A request to construct one of the three change objects. -/
inductive ChangeReq (V : Type) where
  | add (time : ℚ) (value : V)
  | modify (index : ℕ) (value : V)
  | remove (index : ℕ)
deriving DecidableEq, Repr

/-- The state a constructed change object retains: `AddKeyChange` stores
`{time, value, index}` where `index` is what `addKey` returned (possibly
`undefined`, i.e. `none`); `KeyChange` stores `{index, prevValue, newValue}`;
`RemoveKeyChange` stores `{index, time, value}` of the removed key. -/
inductive AppliedChange (V : Type) where
  | add (time : ℚ) (value : V) (index : Option ℕ)
  | modify (index : ℕ) (prevValue newValue : V)
  | remove (index : ℕ) (time : ℚ) (value : V)
deriving DecidableEq, Repr

/-- Running a change constructor on a track: performs the edit and returns
the new keys plus the constructed change object. -/
def applyChange {V : Type} (keys : List (TKey V)) : ChangeReq V → Option (List (TKey V) × AppliedChange V)
  | .add t v => some ((addKey keys t v).1, .add t v (addKey keys t v).2)
  | .modify i v => (getKeyValue? keys i).map fun pv => (setKeyValue keys i v, .modify i pv v)
  | .remove i => (keys.get? i).map fun k => (removeKey keys i, .remove i k.time k.value)

/-- `undo()` of each change object.  `AddKeyChange.undo` calls
`removeKey(this.index)`; when the stored index is `undefined`, JavaScript's
`splice(undefined, 1)` coerces the index to `0`, hence `idx.getD 0`. -/
def undoChange {V : Type} (keys : List (TKey V)) : AppliedChange V → List (TKey V)
  | .add _ _ idx => removeKey keys (idx.getD 0)
  | .modify i pv _ => setKeyValue keys i pv
  | .remove _ t v => (addKey keys t v).1

/-- `redo()` of each change object. -/
def redoChange {V : Type} (keys : List (TKey V)) : AppliedChange V → List (TKey V)
  | .add t v _ => (addKey keys t v).1
  | .modify i _ nv => setKeyValue keys i nv
  | .remove i _ _ => removeKey keys i

/-- Running a whole sequence of change constructors, collecting the
constructed change objects in application order. -/
def applySeq {V : Type} (keys : List (TKey V)) :
    List (ChangeReq V) → Option (List (TKey V) × List (AppliedChange V))
  | [] => some (keys, [])
  | c :: cs =>
    (applyChange keys c).bind fun p =>
      (applySeq p.1 cs).map fun q => (q.1, p.2 :: q.2)

/-- Calling `undo()` on every change of the list in reverse order. -/
def undoAll {V : Type} (keys : List (TKey V)) : List (AppliedChange V) → List (TKey V)
  | [] => keys
  | ac :: rest => undoChange (undoAll keys rest) ac

/-- A change request the code handles without its untreated edge cases: the
added time is fresh (so `addKey` actually inserts) and indices are in
bounds (so the constructors do not throw). -/
def validChange {V : Type} (keys : List (TKey V)) : ChangeReq V → Bool
  | .add t _ => keys.all fun k => decide (k.time ≠ t)
  | .modify i _ => decide (i < keys.length)
  | .remove i => decide (i < keys.length)

/-- `validChange` holding at every step of a sequence. -/
def validSeq {V : Type} (keys : List (TKey V)) : List (ChangeReq V) → Bool
  | [] => true
  | c :: cs =>
    validChange keys c &&
      match applyChange keys c with
      | some p => validSeq p.1 cs
      | none => false

/-! ## Pose values and `XfoTrack.evaluate`

The engine's `Vec3` over exact rationals, with its linear `lerp`.  The
orientation component of an `Xfo` is kept abstract (`O`): quaternion
arithmetic lives in the external engine; the spec describes Pose-track
orientation interpolation as shortest-arc spherical interpolation, so the
interpolator is a parameter `oriLerp`. -/

/-- Modelled from the spec: the external engine's `Vec3` value type, over
exact rationals. -/
structure Vec3Q where
  x : ℚ
  y : ℚ
  z : ℚ
deriving DecidableEq, Repr

instance : Inhabited Vec3Q := ⟨⟨0, 0, 0⟩⟩

instance : Add Vec3Q := ⟨fun a b => ⟨a.x + b.x, a.y + b.y, a.z + b.z⟩⟩

instance : Sub Vec3Q := ⟨fun a b => ⟨a.x - b.x, a.y - b.y, a.z - b.z⟩⟩

instance : Neg Vec3Q := ⟨fun a => ⟨-a.x, -a.y, -a.z⟩⟩

instance : SMul ℚ Vec3Q := ⟨fun r a => ⟨r * a.x, r * a.y, r * a.z⟩⟩

/-- Modelled from the spec: the external `Vec3.lerp(other, t)`, linear
interpolation `this + (other - this) * t`, used for Pose translations. -/
def Vec3Q.lerp (a b : Vec3Q) (t : ℚ) : Vec3Q := a + t • (b - a)

/-- A Pose (`Xfo`) value as the tracks use it: translation plus an
orientation of the abstract type `O`.  (`XfoTrack.evaluate` builds its
result as `new Xfo(tr, ori)`, without a scale.) -/
structure XfoV (O : Type) where
  tr : Vec3Q
  ori : O
deriving DecidableEq, Repr

instance {O : Type} [Inhabited O] : Inhabited (XfoV O) := ⟨⟨default, default⟩⟩

/-- `XfoTrack.evaluate(time)`: find the key and lerp; at `lerp == 0` return
the key's exact value, otherwise blend translation linearly and orientation
with `oriLerp` (the external `Quat.lerp`, which the spec describes as
shortest-arc spherical interpolation).  `none` models the `TypeError` the
JS would throw reading `keys[-1]` on an empty track. -/
def xfoTrackEvaluate {O : Type} (oriLerp : O → O → ℚ → O)
    (keys : List (TKey (XfoV O))) (time : ℚ) : Option (XfoV O) :=
  (findKeyAndLerp keys time).bind fun kl =>
    if kl.keyIndex < 0 then none
    else
      (keys.get? kl.keyIndex.toNat).bind fun key0 =>
        if kl.lerp > 0 then
          (keys.get? (kl.keyIndex.toNat + 1)).bind fun key1 =>
            some ⟨key0.value.tr.lerp key1.value.tr kl.lerp,
                  oriLerp key0.value.ori key1.value.ori kl.lerp⟩
        else some key0.value

/-- `TrackSampler.evaluate()`: with zero keys, re-write the output port's
current value (`output.setClean(output.getValue())`); otherwise evaluate
the track at the `Time` input and write the result. -/
def trackSamplerEvaluate {O : Type} (oriLerp : O → O → ℚ → O)
    (keys : List (TKey (XfoV O))) (time : ℚ) (outputValue : XfoV O) : Option (XfoV O) :=
  if keys.length = 0 then some outputValue
  else xfoTrackEvaluate oriLerp keys time

/-! ## `AttachmentConstraint`

Poses are modelled at the spec's interface boundary for the external `Xfo`:
composable by multiplication and invertible, i.e. a group `G`.  Each attach
target carries the instantaneous value of its input, its activation time,
and the lazily cached `offsetXfo`. -/

/-- One entry of `AttachmentConstraint.__attachTargets`: the target input's
current pose value, the activation `time`, and the cached `offsetXfo`
(`none` until first computed). -/
structure AttachTargetE (G : Type) where
  val : G
  time : ℚ
  offsetXfo : Option G
deriving DecidableEq, Repr

/-- The scan of `AttachmentConstraint.findTarget`'s loop
(`for (let i = 1; i < numKeys; i++) if (key.time > time) return i - 1`). -/
def findTargetLoop {G : Type} (time : ℚ) : List (AttachTargetE G) → ℕ → Option ℤ
  | [], _ => none
  | t :: ts, i => if t.time > time then some ((i : ℤ) - 1) else findTargetLoop time ts (i + 1)

/-- `AttachmentConstraint.findTarget(time)`: `-1` when there are no targets
or `time <= ` the first activation time, the last index when `time >= ` the
last activation time, else the scan.  `none` models the `undefined`
fall-through of the loop. -/
def findTarget {G : Type} (targets : List (AttachTargetE G)) (time : ℚ) : Option ℤ :=
  match targets with
  | [] => some (-1)
  | t0 :: rest =>
    if time ≤ t0.time then some (-1)
    else if time ≥ ((t0 :: rest).getLastD t0).time then some (((t0 :: rest).length : ℤ) - 1)
    else findTargetLoop time rest 1

/-- Caching a freshly computed `offsetXfo` on target `i`
(`attachment.offsetXfo = offsetXfo`). -/
def setOffsetAt {G : Type} : List (AttachTargetE G) → ℕ → G → List (AttachTargetE G)
  | [], _, _ => []
  | t :: ts, 0, off => ⟨t.val, t.time, some off⟩ :: ts
  | t :: ts, n + 1, off => t :: setOffsetAt ts n off

/-- The mutable state of an `AttachmentConstraint`: its target list and
`this.__attachId` (initially `-1`). -/
structure AttachState (G : Type) where
  attachTargets : List (AttachTargetE G)
  attachId : ℤ
deriving DecidableEq, Repr

/-- `AttachmentConstraint.evaluate()`: find the active target; with none
active pass the output through unchanged; on a switch compute and cache
`offsetXfo` (`inverse(curr) * out` on first activation, else
`inverse(curr) * (prev * prevOffset)`); output `curr * offset`.  `none`
models the `undefined`/`NaN` paths unreachable with a sorted target list
(loop fall-through, a selected target whose offset was never cached). -/
def attachmentEvaluate {G : Type} [Group G] (s : AttachState G) (time : ℚ) (outVal : G) :
    Option (AttachState G × G) :=
  (findTarget s.attachTargets time).bind fun attachId =>
    if attachId = -1 then some (s, outVal)
    else
      (s.attachTargets.get? attachId.toNat).bind fun attachment =>
        let currXfo := attachment.val
        if attachId ≠ s.attachId then
          match attachment.offsetXfo with
          | some off => some (⟨s.attachTargets, attachId⟩, currXfo * off)
          | none =>
            if s.attachId = -1 then
              let off := currXfo⁻¹ * outVal
              some (⟨setOffsetAt s.attachTargets attachId.toNat off, attachId⟩, currXfo * off)
            else
              (s.attachTargets.get? s.attachId.toNat).bind fun prevA =>
                prevA.offsetXfo.bind fun prevOffset =>
                  let off := currXfo⁻¹ * (prevA.val * prevOffset)
                  some (⟨setOffsetAt s.attachTargets attachId.toNat off, attachId⟩, currXfo * off)
        else
          match attachment.offsetXfo with
          | some off => some (s, currXfo * off)
          | none => none

/-! ## `ExplodePartParameter.evaluate` -/

/-- Modelled from the spec: the external `MathFunctions.linStep(e0, e1, x)`,
the fraction `(x - e0) / (e1 - e0)` clamped to `[0, 1]`. -/
def linStep (edge0 edge1 x : ℚ) : ℚ := min (max ((x - edge0) / (edge1 - edge0)) 0) 1

/-- `ExplodePartParameter.evaluate`: `none` when the part's output is
unconnected (the guard returns before computing anything); otherwise the
new output translation.  `parentDelta`, present when a `RelativeTo` parent
is set, abstracts the external pose algebra: its first component rotates
the axis by the parent's orientation, its second applies the parent's
delta transform to the output translation. -/
def evaluateExplodePart (connected : Bool) (stage stages movementX movementY multiplier : ℚ)
    (axis : Vec3Q) (explode explodeDist offset : ℚ) (cascade centered : Bool)
    (parentDelta : Option ((Vec3Q → Vec3Q) × (Vec3Q → Vec3Q))) (outTr : Vec3Q) : Option Vec3Q :=
  if connected = false then none
  else
    let dist :=
      if cascade then
        let t := stage / stages
        let t := if centered then t - 1 / 2 else t
        explodeDist * linStep movementX movementY (max 0 (explode - t))
      else
        let t := 1 - stage / stages
        let t := if centered then t - 1 / 2 else t
        explodeDist * linStep movementX movementY explode * t
    let dist := dist + offset
    match parentDelta with
    | some p => some (p.2 outTr + (dist * multiplier) • p.1 axis)
    | none => some (outTr + (dist * multiplier) • axis)

/-- The scalar displacement the code actually applies along the axis:
`(explodeDist * linStep(..) [* t] + offset) * multiplier` — the `offset`
is added to `dist` before the multiplication by `multiplier`. -/
def explodeDisplacement (stage stages movementX movementY multiplier explode explodeDist offset : ℚ)
    (cascade centered : Bool) : ℚ :=
  let dist :=
    if cascade then
      let t := stage / stages
      let t := if centered then t - 1 / 2 else t
      explodeDist * linStep movementX movementY (max 0 (explode - t))
    else
      let t := 1 - stage / stages
      let t := if centered then t - 1 / 2 else t
      explodeDist * linStep movementX movementY explode * t
  (dist + offset) * multiplier

/-- The displacement formula exactly as the spec sentence words it:
`explodeDistance * linearStep(t0, t1, f) * multiplier + offset`, with the
offset term added after the multiplication by the multiplier. -/
def claimedExplodeDisplacement (stage stages movementX movementY multiplier explode explodeDist offset : ℚ)
    (cascade centered : Bool) : ℚ :=
  if cascade then
    let t := stage / stages
    let t := if centered then t - 1 / 2 else t
    explodeDist * linStep movementX movementY (max 0 (explode - t)) * multiplier + offset
  else
    let t := 1 - stage / stages
    let t := if centered then t - 1 / 2 else t
    explodeDist * linStep movementX movementY explode * t * multiplier + offset

/-! ## Operator outputs and connectivity guards

An `OperatorOutput` as the guards see it: a connection flag plus the cached
value.  Each evaluation below returns, per output, the port after the call
and a flag recording whether the code wrote (`setClean`/`setValue`) to it. -/

/-- An operator output port: its `isConnected()` flag and cached value. -/
structure PortE (α : Type) where
  connected : Bool
  value : α
deriving DecidableEq, Repr

/-- One gear of a `GearsOperator`: `{Ratio, Offset, Axis}`. -/
structure GearE where
  ratio : ℚ
  offset : ℚ
  axis : Vec3Q
deriving DecidableEq, Repr

/-- The body of `GearsOperator.evaluate`'s per-gear loop: skip (no write)
when the gear's output is unconnected, else compose the axis/angle rotation
`rot * π * 2` onto the output orientation and write.  `axisAngle` and
`oriMul` abstract the external `Quat.setFromAxisAndAngle` and quaternion
multiplication. -/
noncomputable def evaluateGear {O : Type} (axisAngle : Vec3Q → ℝ → O) (oriMul : O → O → O)
    (revolutions : ℚ) (gear : GearE) (output : PortE (XfoV O)) : PortE (XfoV O) × Bool :=
  if output.connected = false then (output, false)
  else
    let rot := revolutions * gear.ratio + gear.offset
    let quat := axisAngle gear.axis ((rot : ℝ) * Real.pi * 2)
    (⟨output.connected, ⟨output.value.tr, oriMul quat output.value.ori⟩⟩, true)

/-- `GearsOperator.evaluate`: the loop over all gears. -/
noncomputable def evaluateGears {O : Type} (axisAngle : Vec3Q → ℝ → O) (oriMul : O → O → O)
    (revolutions : ℚ) (gears : List (GearE × PortE (XfoV O))) : List (PortE (XfoV O) × Bool) :=
  gears.map fun p => evaluateGear axisAngle oriMul revolutions p.1 p.2

/-- `RamAndPistonOperator.evaluate`: reads both outputs, aligns each
orientation toward the other along the chosen axis, and writes both —
with no `isConnected` check anywhere.  `normalizeV`, `setFrom2`, `oriMul`,
`getX/getY/getZ` and `identO` abstract the external vector/quaternion
operations (`identO` is the freshly constructed identity `Quat`, used
unchanged when the axis selector falls outside `0..5`). -/
def evaluateRamAndPiston {O : Type} (normalizeV : Vec3Q → Vec3Q) (setFrom2 : Vec3Q → Vec3Q → O)
    (oriMul : O → O → O) (getX getY getZ : O → Vec3Q) (identO : O) (axis : ℕ)
    (ram piston : PortE (XfoV O)) : (PortE (XfoV O) × Bool) × (PortE (XfoV O) × Bool) :=
  let ramXfo := ram.value
  let pistonXfo := piston.value
  let dir := normalizeV (pistonXfo.tr - ramXfo.tr)
  let aligns : O × O :=
    match axis with
    | 0 => (setFrom2 (getX ramXfo.ori) dir, setFrom2 (-getX pistonXfo.ori) dir)
    | 1 => (setFrom2 (-getX ramXfo.ori) dir, setFrom2 (getX pistonXfo.ori) dir)
    | 2 => (setFrom2 (getY ramXfo.ori) dir, setFrom2 (-getY pistonXfo.ori) dir)
    | 3 => (setFrom2 (-getY ramXfo.ori) dir, setFrom2 (getY pistonXfo.ori) dir)
    | 4 => (setFrom2 (getZ ramXfo.ori) dir, setFrom2 (-getZ pistonXfo.ori) dir)
    | 5 => (setFrom2 (-getZ ramXfo.ori) dir, setFrom2 (getZ pistonXfo.ori) dir)
    | _ => (identO, identO)
  ((⟨ram.connected, ⟨ramXfo.tr, oriMul aligns.1 ramXfo.ori⟩⟩, true),
   (⟨piston.connected, ⟨pistonXfo.tr, oriMul aligns.2 pistonXfo.ori⟩⟩, true))

/-! ## Real 3-vectors and the triangle IK solver

The float geometry of `TriangleIKSolver.evaluate` and
`PistonParameter.evaluate` over `ℝ`. -/

/-- A 3-vector over `ℝ`. -/
abbrev V3 := Fin 3 → ℝ

/-- The dot product of two 3-vectors. -/
def dot3 (u v : V3) : ℝ := u 0 * v 0 + u 1 * v 1 + u 2 * v 2

/-- The cross product of two 3-vectors. -/
def cross3 (u v : V3) : V3 := fun i =>
  if i = 0 then u 1 * v 2 - u 2 * v 1
  else if i = 1 then u 2 * v 0 - u 0 * v 2
  else u 0 * v 1 - u 1 * v 0

/-- Helper for concrete 3-vectors in examples. -/
def v3 (x y z : ℝ) : V3 := fun i =>
  if i = 0 then x else if i = 1 then y else z

/-- The Euclidean length (`Vec3.length`). -/
noncomputable def vlen (v : V3) : ℝ := Real.sqrt (dot3 v v)

/-- `Vec3.normalize`: scale by the inverse length. -/
noncomputable def vnormalize (v : V3) : V3 := (vlen v)⁻¹ • v

/-- Modelled from the spec: the rotation of `v` about the unit axis by the
angle — the external `Quat.setFromAxisAndAngle` followed by `rotateVec3`,
i.e. the Rodrigues rotation. -/
noncomputable def rodrigues (axis : V3) (angle : ℝ) (v : V3) : V3 :=
  Real.cos angle • v + Real.sin angle • cross3 axis v +
    ((1 - Real.cos angle) * dot3 axis v) • axis

/-- The joint1 position `TriangleIKSolver.evaluate` computes: the
law-of-cosines interior angle at joint0 from the cached bone lengths and
the joint0-to-target distance, the rotation of joint0 about the normalized
cross of the (normalized) joint0-to-target and joint0-to-joint1 vectors by
the difference between that angle and the current angle, applied to the
current bone vector `joint01Vec = joint0.ori.rotateVec3(joint1Offset)`. -/
noncomputable def triangleIKJoint1Tr (joint0tr joint01Vec : V3) (joint0Length joint1Length : ℝ)
    (targetTr : V3) : V3 :=
  let joint0TargetVec := targetTr - joint0tr
  let a := joint0Length
  let b := vlen joint0TargetVec
  let c := joint1Length
  let angle := Real.arccos ((a * a + b * b - c * c) / (2 * a * b))
  let jtn := vnormalize joint0TargetVec
  let j01n := vnormalize joint01Vec
  let joint0Axis := vnormalize (cross3 jtn j01n)
  let currAngle := Real.arccos (dot3 jtn j01n)
  joint0tr + rodrigues joint0Axis (angle - currAngle) joint01Vec

/-- The chain tip after `TriangleIKSolver.evaluate`: joint1 is realigned by
`setFrom2Vectors` so its cached unit target direction maps onto the
normalized joint1-to-target vector, so the tip sits `joint1Length` along
that direction from the computed joint1 position. -/
noncomputable def triangleIKTip (joint0tr joint01Vec : V3) (joint0Length joint1Length : ℝ)
    (targetTr : V3) : V3 :=
  let joint1tr := triangleIKJoint1Tr joint0tr joint01Vec joint0Length joint1Length targetTr
  joint1tr + joint1Length • vnormalize (targetTr - joint1tr)

/-- `TriangleIKSolver.evaluate` at the port level: both outputs are read,
recomputed and written (`setClean`) unconditionally — the connection flags
are never consulted. -/
noncomputable def triangleIKEvaluatePorts (joint01Vec : V3) (joint0Length joint1Length : ℝ)
    (targetTr : V3) (joint0 joint1 : PortE V3) : (PortE V3 × Bool) × (PortE V3 × Bool) :=
  let joint1tr := triangleIKJoint1Tr joint0.value joint01Vec joint0Length joint1Length targetTr
  ((⟨joint0.connected, joint0.value⟩, true), (⟨joint1.connected, joint1tr⟩, true))

/-- `PistonParameter.evaluate`: the cam geometry, then a guarded write to
the rod output and a guarded write to the cap output.  Ports carry the
output translation plus an abstract orientation; `rotateVec`, `axisAngle3`
and `oriMul` abstract the external quaternion operations; the remaining
arguments are the cached bind-time state (`__baseCrankXfo.tr`, `__camVec`,
`__pistonAxis`, `__pistonOffset`). -/
noncomputable def evaluatePistonParam {O : Type} (rotateVec : O → V3 → V3)
    (axisAngle3 : V3 → ℝ → O) (oriMul : O → O → O) (quat : O) (crankAxis : V3)
    (revolutions camPhase camLength rodLength : ℝ) (baseCrankTr camVec pistonAxis : V3)
    (pistonOffset : ℝ) (rod cap : PortE (V3 × O)) :
    (PortE (V3 × O) × Bool) × (PortE (V3 × O) × Bool) :=
  let camAngle := (camPhase + revolutions) * 2 * Real.pi
  let bigEndOffset := Real.sin camAngle * camLength
  let rodAngle := Real.arcsin (bigEndOffset / rodLength)
  let headOffset := Real.sqrt (rodLength * rodLength - bigEndOffset * bigEndOffset) +
    Real.cos camAngle * camLength
  let rodRes :=
    if rod.connected = false then (rod, false)
    else
      let rodXfo := rod.value
      let axisPos := dot3 (rodXfo.1 - baseCrankTr) crankAxis
      let rotRotation := axisAngle3 crankAxis (-rodAngle)
      let tr := baseCrankTr + rotateVec quat camVec + axisPos • crankAxis
      ((⟨rod.connected, (tr, oriMul rotRotation rodXfo.2)⟩ : PortE (V3 × O)), true)
  let capRes :=
    if cap.connected = false then (cap, false)
    else
      ((⟨cap.connected,
          (cap.value.1 + (headOffset - pistonOffset) • pistonAxis, cap.value.2)⟩ : PortE (V3 × O)),
        true)
  (rodRes, capRes)

/-! ## Component lemmas for the rational vector type -/

@[simp] lemma Vec3Q_add (a b : Vec3Q) : a + b = ⟨a.x + b.x, a.y + b.y, a.z + b.z⟩ := rfl

@[simp] lemma Vec3Q_sub (a b : Vec3Q) : a - b = ⟨a.x - b.x, a.y - b.y, a.z - b.z⟩ := rfl

@[simp] lemma Vec3Q_neg (a : Vec3Q) : -a = ⟨-a.x, -a.y, -a.z⟩ := rfl

@[simp] lemma Vec3Q_smul (r : ℚ) (a : Vec3Q) : r • a = ⟨r * a.x, r * a.y, r * a.z⟩ := rfl

/-! ## Sorted-list toolkit shared by the track claims -/

lemma timeSorted_get_lt {V : Type} {keys : List (TKey V)} (hs : TimeSorted keys) {i j : ℕ}
    (hij : i < j) {ki kj : TKey V} (hi : keys.get? i = some ki) (hj : keys.get? j = some kj) :
    ki.time < kj.time := by
  have hi' := List.get?_eq_some.mp hi
  have hj' := List.get?_eq_some.mp hj
  obtain ⟨hbi, hgi⟩ := hi'
  obtain ⟨hbj, hgj⟩ := hj'
  have := (List.pairwise_iff_get.mp hs) ⟨i, hbi⟩ ⟨j, hbj⟩ hij
  rwa [hgi, hgj] at this

lemma timeSorted_head_lt {V : Type} {k0 : TKey V} {rest : List (TKey V)}
    (hs : TimeSorted (k0 :: rest)) {k : TKey V} (hk : k ∈ rest) : k0.time < k.time :=
  (List.pairwise_cons.mp hs).1 k hk

/-- Helper: the two default-value reads of the last key agree on a
nonempty list. -/
lemma getLastD_eq_getLast {V : Type} (k0 d : TKey V) (rest : List (TKey V)) :
    (k0 :: rest).getLastD d = (k0 :: rest).getLast (List.cons_ne_nil k0 rest) := by
  rw [List.getLastD_eq_getLast?, List.getLast?_eq_getLast _ (List.cons_ne_nil k0 rest)]
  rfl

/-- Helper: specification of the `findKeyAndLerp` scan.  The full key array
is `front ++ prev :: ks`, `prev` sits at index `front.length`, and the scan
starts at absolute index `front.length + 1`. -/
lemma findKeyLoop_spec {V : Type} (time : ℚ) :
    ∀ (ks front : List (TKey V)) (prev : TKey V),
      prev.time ≤ time →
      (∃ k ∈ ks, time < k.time) →
      ∃ (n : ℕ) (pn kn : TKey V),
        (front ++ prev :: ks).get? n = some pn ∧
        (front ++ prev :: ks).get? (n + 1) = some kn ∧
        pn.time ≤ time ∧ time < kn.time ∧
        findKeyLoop time prev ks (front.length + 1) =
          some ⟨(n : ℤ), (time - pn.time) / (kn.time - pn.time)⟩ := by
  intro ks
  induction ks with
  | nil => intro front prev _ hex; simp at hex
  | cons k ks ih =>
    intro front prev hle hex
    by_cases hk : time < k.time
    · refine ⟨front.length, prev, k, ?_, ?_, hle, hk, ?_⟩
      · rw [List.get?_append_right le_rfl, Nat.sub_self]; rfl
      · rw [List.get?_append_right (Nat.le_succ_of_le le_rfl), Nat.succ_sub le_rfl,
          Nat.sub_self]
        rfl
      · simp only [findKeyLoop, hk, if_true]
        congr 1
        simp [KeyAndLerp.mk.injEq]
    · have hle' : k.time ≤ time := le_of_not_lt hk
      have hex' : ∃ k' ∈ ks, time < k'.time := by
        obtain ⟨k', hk', ht⟩ := hex
        rcases List.mem_cons.mp hk' with rfl | hmem
        · exact absurd ht hk
        · exact ⟨k', hmem, ht⟩
      obtain ⟨n, pn, kn, h1, h2, h3, h4, h5⟩ := ih (front ++ [prev]) k hle' hex'
      rw [List.append_assoc, List.singleton_append] at h1 h2
      refine ⟨n, pn, kn, h1, h2, h3, h4, ?_⟩
      simp only [findKeyLoop, hk, if_false]
      rw [List.length_append, List.length_singleton] at h5
      exact h5

/-- Helper: a sorted key list has at most one bracketing index for a given
time. -/
lemma bracket_unique {V : Type} {keys : List (TKey V)} (hs : TimeSorted keys) {time : ℚ}
    {n m : ℕ} {pn kn pm km : TKey V} (hn : keys.get? n = some pn)
    (hn1 : keys.get? (n + 1) = some kn) (hm : keys.get? m = some pm)
    (hm1 : keys.get? (m + 1) = some km) (h1 : pn.time ≤ time) (h2 : time < kn.time)
    (h3 : pm.time ≤ time) (h4 : time < km.time) : n = m := by
  rcases Nat.lt_trichotomy n m with h | h | h
  · exfalso
    have hle : kn.time ≤ pm.time := by
      rcases Nat.lt_or_ge (n + 1) m with hl | hg
      · exact le_of_lt (timeSorted_get_lt hs hl hn1 hm)
      · have : n + 1 = m := le_antisymm (Nat.succ_le_of_lt h) hg
        rw [this] at hn1
        rw [hn1] at hm
        injection hm with hm
        rw [hm]
    linarith
  · exact h
  · exfalso
    have hle : km.time ≤ pn.time := by
      rcases Nat.lt_or_ge (m + 1) n with hl | hg
      · exact le_of_lt (timeSorted_get_lt hs hl hm1 hn)
      · have : m + 1 = n := le_antisymm (Nat.succ_le_of_lt h) hg
        rw [this] at hm1
        rw [hm1] at hn
        injection hn with hn
        rw [hn]
    linarith

/-! ## Claim C3: `findKeyAndLerp` -/

/-- Helper: the full specification of `findKeyAndLerp`, shared by the
track-evaluation lemmas below. -/
lemma findKeyAndLerp_spec_aux {V : Type} [Inhabited V] (keys : List (TKey V)) (time : ℚ)
    (hne : keys ≠ []) (hs : TimeSorted keys) :
    ∃ r : KeyAndLerp, findKeyAndLerp keys time = some r ∧ 0 ≤ r.lerp ∧ r.lerp < 1 ∧
      (time ≤ keys.headI.time → r = ⟨0, 0⟩) ∧
      ((keys.getLastD default).time ≤ time → r = ⟨(keys.length : ℤ) - 1, 0⟩) ∧
      (keys.headI.time < time → time < (keys.getLastD default).time →
        ∃ (n : ℕ) (pn kn : TKey V), keys.get? n = some pn ∧ keys.get? (n + 1) = some kn ∧
          pn.time ≤ time ∧ time < kn.time ∧
          r = ⟨(n : ℤ), (time - pn.time) / (kn.time - pn.time)⟩) := by
  obtain ⟨k0, rest, rfl⟩ : ∃ k0 rest, keys = k0 :: rest := by
    cases keys with
    | nil => exact absurd rfl hne
    | cons a l => exact ⟨a, l, rfl⟩
  have hlastd : (k0 :: rest).getLastD k0 = (k0 :: rest).getLastD default := by
    rw [getLastD_eq_getLast k0 k0 rest, getLastD_eq_getLast k0 default rest]
  by_cases h0 : time ≤ k0.time
  · refine ⟨⟨0, 0⟩, ?_, le_rfl, by norm_num, fun _ => rfl, ?_, ?_⟩
    · show (if time ≤ k0.time then some ⟨0, 0⟩
          else if time ≥ ((k0 :: rest).getLastD k0).time then
            some ⟨((k0 :: rest).length : ℤ) - 1, 0⟩
          else findKeyLoop time k0 rest 1) = some ⟨0, 0⟩
      rw [if_pos h0]
    · intro hL
      rw [← hlastd] at hL
      cases rest with
      | nil => simp
      | cons k1 rest' =>
        exfalso
        have hmem : (k0 :: k1 :: rest').getLastD k0 ∈ k1 :: rest' := by
          rw [List.getLastD_cons, List.getLastD_cons]
          exact List.getLastD_mem_cons rest' k1
        have := timeSorted_head_lt hs hmem
        linarith
    · intro hlt _
      exact absurd (lt_of_le_of_lt h0 hlt) (lt_irrefl _)
  · have h0' : k0.time < time := lt_of_not_le h0
    by_cases hL : time ≥ ((k0 :: rest).getLastD k0).time
    · refine ⟨⟨((k0 :: rest).length : ℤ) - 1, 0⟩, ?_, le_rfl, by norm_num, ?_, fun _ => rfl, ?_⟩
      · show (if time ≤ k0.time then some ⟨0, 0⟩
            else if time ≥ ((k0 :: rest).getLastD k0).time then
              some ⟨((k0 :: rest).length : ℤ) - 1, 0⟩
            else findKeyLoop time k0 rest 1) = some ⟨((k0 :: rest).length : ℤ) - 1, 0⟩
        rw [if_neg h0, if_pos hL]
      · intro h; exact absurd h0' (not_lt.mpr h)
      · intro _ hlt
        rw [← hlastd] at hlt
        exact absurd hL (not_le.mpr hlt)
    · have hlt : time < ((k0 :: rest).getLastD k0).time := lt_of_not_le hL
      have hrest : rest ≠ [] := by
        intro h
        subst h
        simp [List.getLastD] at hlt
        linarith
      have hex : ∃ k ∈ rest, time < k.time := by
        refine ⟨(k0 :: rest).getLastD k0, ?_, hlt⟩
        rw [List.getLastD_cons, List.getLastD_eq_getLast?, List.getLast?_eq_getLast _ hrest]
        exact List.getLast_mem _
      obtain ⟨n, pn, kn, h1, h2, h3, h4, h5⟩ :=
        findKeyLoop_spec time rest [] k0 (le_of_lt h0') hex
      rw [List.nil_append] at h1 h2
      have hden : 0 < kn.time - pn.time := by linarith
      refine ⟨⟨(n : ℤ), (time - pn.time) / (kn.time - pn.time)⟩, ?_, ?_, ?_, ?_, ?_, ?_⟩
      · show (if time ≤ k0.time then some ⟨0, 0⟩
            else if time ≥ ((k0 :: rest).getLastD k0).time then
              some ⟨((k0 :: rest).length : ℤ) - 1, 0⟩
            else findKeyLoop time k0 rest 1) =
          some ⟨(n : ℤ), (time - pn.time) / (kn.time - pn.time)⟩
        rw [if_neg h0, if_neg hL]
        simpa using h5
      · exact div_nonneg (by linarith) (le_of_lt hden)
      · rw [div_lt_one hden]; linarith
      · intro h; exact absurd h0' (not_lt.mpr h)
      · intro h
        rw [← hlastd] at h
        exact absurd hlt (not_lt.mpr h)
      · intro _ _
        exact ⟨n, pn, kn, h1, h2, h3, h4, rfl⟩

/-- C3: for every track with at least one key (and the strictly-sorted key
invariant) and every time, `findKeyAndLerp` returns a record with
`lerp ∈ [0, 1)`; at or before the first key it returns index `0` with lerp
`0`; at or after the last key it returns the last index with lerp `0`; and
strictly in between it returns an index whose key time is `≤ time`, whose
successor's key time is `> time`, with lerp the linear fraction between the
two bracketing key times. -/
theorem findKeyAndLerp_spec {V : Type} [Inhabited V] (keys : List (TKey V)) (time : ℚ)
    (hne : keys ≠ []) (hs : TimeSorted keys) :
    ∃ r : KeyAndLerp, findKeyAndLerp keys time = some r ∧ 0 ≤ r.lerp ∧ r.lerp < 1 ∧
      (time ≤ keys.headI.time → r = ⟨0, 0⟩) ∧
      ((keys.getLastD default).time ≤ time → r = ⟨(keys.length : ℤ) - 1, 0⟩) ∧
      (keys.headI.time < time → time < (keys.getLastD default).time →
        ∃ (n : ℕ) (pn kn : TKey V), keys.get? n = some pn ∧ keys.get? (n + 1) = some kn ∧
          pn.time ≤ time ∧ time < kn.time ∧
          r = ⟨(n : ℤ), (time - pn.time) / (kn.time - pn.time)⟩) :=
  findKeyAndLerp_spec_aux keys time hne hs

/-- C3 witness: the two-key track `{0: v0, 10: v1}` sampled at time 5. -/
theorem findKeyAndLerp_spec_witness :
    (([⟨0, 0⟩, ⟨10, 1⟩] : List (TKey ℚ)) ≠ [] ∧ TimeSorted ([⟨0, 0⟩, ⟨10, 1⟩] : List (TKey ℚ))) ∧
    ∃ r : KeyAndLerp,
      findKeyAndLerp ([⟨0, 0⟩, ⟨10, 1⟩] : List (TKey ℚ)) 5 = some r ∧ 0 ≤ r.lerp ∧ r.lerp < 1 ∧
      (5 ≤ ([⟨0, 0⟩, ⟨10, 1⟩] : List (TKey ℚ)).headI.time → r = ⟨0, 0⟩) ∧
      ((([⟨0, 0⟩, ⟨10, 1⟩] : List (TKey ℚ)).getLastD default).time ≤ 5 →
        r = ⟨(([⟨0, 0⟩, ⟨10, 1⟩] : List (TKey ℚ)).length : ℤ) - 1, 0⟩) ∧
      (([⟨0, 0⟩, ⟨10, 1⟩] : List (TKey ℚ)).headI.time < 5 →
        5 < (([⟨0, 0⟩, ⟨10, 1⟩] : List (TKey ℚ)).getLastD default).time →
        ∃ (n : ℕ) (pn kn : TKey ℚ),
          ([⟨0, 0⟩, ⟨10, 1⟩] : List (TKey ℚ)).get? n = some pn ∧
          ([⟨0, 0⟩, ⟨10, 1⟩] : List (TKey ℚ)).get? (n + 1) = some kn ∧
          pn.time ≤ 5 ∧ (5:ℚ) < kn.time ∧
          r = ⟨(n : ℤ), ((5:ℚ) - pn.time) / (kn.time - pn.time)⟩) := by
  constructor
  · exact ⟨by simp, by simp [TimeSorted]⟩
  · exact findKeyAndLerp_spec ([⟨0, 0⟩, ⟨10, 1⟩] : List (TKey ℚ)) 5 (by simp)
      (by simp [TimeSorted])

/-! ## Insertion characterization for `addKey` -/

/-- Helper: on a scan segment whose times never equal `time` and which
contains a later key, the `addKey` loop splices the new key right after the
keys whose time is below `time`. -/
lemma addKeyLoop_spec {V : Type} (time : ℚ) (value : V) :
    ∀ (ks : List (TKey V)) (i : ℕ),
      (∀ k ∈ ks, k.time ≠ time) →
      (∃ k ∈ ks, time < k.time) →
      addKeyLoop time value ks i =
        some (ks.takeWhile (beforeTime time) ++ ⟨time, value⟩ ::
                ks.dropWhile (beforeTime time),
              i + (ks.takeWhile (beforeTime time)).length) := by
  intro ks
  induction ks with
  | nil => intro i _ hex; simp at hex
  | cons k ks ih =>
    intro i hf hex
    by_cases hk : time < k.time
    · have hp : ¬ (beforeTime time) k = true := by
        simp [beforeTime, asymm hk]
      rw [List.takeWhile_cons_of_neg hp, List.dropWhile_cons_of_neg hp]
      simp only [addKeyLoop, if_pos hk, List.nil_append, List.length_nil, Nat.add_zero]
    · have hk' : k.time < time :=
        lt_of_le_of_ne (le_of_not_lt hk) (hf k (List.mem_cons_self k ks))
      have hp : (beforeTime time) k = true := by simp [beforeTime, hk']
      have hex' : ∃ k' ∈ ks, time < k'.time := by
        obtain ⟨k', hk'', ht⟩ := hex
        rcases List.mem_cons.mp hk'' with rfl | hmem
        · exact absurd ht hk
        · exact ⟨k', hmem, ht⟩
      have hf' : ∀ k' ∈ ks, k'.time ≠ time := fun k' h => hf k' (List.mem_cons_of_mem _ h)
      rw [List.takeWhile_cons_of_pos hp, List.dropWhile_cons_of_pos hp]
      simp only [addKeyLoop, if_neg hk, ih (i + 1) hf' hex', Option.map_some,
        List.cons_append, List.length_cons]
      refine congrArg some (Prod.ext rfl ?_)
      simp
      omega

/-- Helper: with sorted, time-fresh keys, everything `dropWhile` keeps has
its time strictly above `time`. -/
lemma dropWhile_time_gt {V : Type} (time : ℚ) :
    ∀ (keys : List (TKey V)), TimeSorted keys → (∀ k ∈ keys, k.time ≠ time) →
      ∀ k ∈ keys.dropWhile (beforeTime time), time < k.time := by
  intro keys
  induction keys with
  | nil => simp
  | cons k0 ks ih =>
    intro hs hf
    by_cases h : k0.time < time
    · rw [List.dropWhile_cons_of_pos (by simp [beforeTime, h])]
      exact ih (List.pairwise_cons.mp hs).2 fun k hk => hf k (List.mem_cons_of_mem _ hk)
    · rw [List.dropWhile_cons_of_neg (by simp [beforeTime, h])]
      intro k hk
      have h0 : time < k0.time :=
        lt_of_le_of_ne (le_of_not_lt h) (Ne.symm (hf k0 (List.mem_cons_self _ _)))
      rcases List.mem_cons.mp hk with rfl | hmem
      · exact h0
      · exact lt_trans h0 (timeSorted_head_lt hs hmem)

/-- Helper: every key of a sorted nonempty list has time at most the last
key's time. -/
lemma timeSorted_le_getLastD {V : Type} :
    ∀ (rest : List (TKey V)) (k0 : TKey V), TimeSorted (k0 :: rest) →
      ∀ k ∈ k0 :: rest, k.time ≤ ((k0 :: rest).getLastD k0).time := by
  intro rest
  induction rest with
  | nil => intro k0 _ k hk; simp at hk; subst hk; simp
  | cons k1 rest' ih =>
    intro k0 hs k hk
    have hlast : ((k0 :: k1 :: rest').getLastD k0) = ((k1 :: rest').getLastD k1) := by
      rw [List.getLastD_cons, List.getLastD_cons, List.getLastD_cons]
    rw [hlast]
    rcases List.mem_cons.mp hk with rfl | hmem
    · have hmem' : (k1 :: rest').getLastD k1 ∈ k1 :: rest' := by
        rw [List.getLastD_cons]
        exact List.getLastD_mem_cons rest' k1
      exact le_of_lt (timeSorted_head_lt hs hmem')
    · exact ih k1 (List.pairwise_cons.mp hs).2 k hmem

/-- Helper: `addKey` with a time fresh to a sorted track splices the new
key right after the keys with smaller time and returns that position. -/
lemma addKey_sorted_fresh {V : Type} {keys : List (TKey V)} {time : ℚ} (value : V)
    (hs : TimeSorted keys) (hf : ∀ k ∈ keys, k.time ≠ time) :
    addKey keys time value =
      (keys.takeWhile (beforeTime time) ++ ⟨time, value⟩ ::
         keys.dropWhile (beforeTime time),
       some (keys.takeWhile (beforeTime time)).length) := by
  cases keys with
  | nil => rfl
  | cons k0 rest =>
    show (if time < k0.time then (⟨time, value⟩ :: k0 :: rest, some 0)
        else if time > ((k0 :: rest).getLastD k0).time then
          (k0 :: rest ++ [⟨time, value⟩], some (k0 :: rest).length)
        else
          match addKeyLoop time value rest 1 with
          | some (l, i) => (k0 :: l, some i)
          | none => (k0 :: rest, none)) = _
    by_cases h0 : time < k0.time
    · have hp : ¬ (beforeTime time) k0 = true := by
        simp [beforeTime, asymm h0]
      rw [if_pos h0, List.takeWhile_cons_of_neg hp, List.dropWhile_cons_of_neg hp]
      rfl
    · have h0' : k0.time < time :=
        lt_of_le_of_ne (le_of_not_lt h0) (hf k0 (List.mem_cons_self _ _))
      have hp : (beforeTime time) k0 = true := by simp [beforeTime, h0']
      by_cases hL : time > ((k0 :: rest).getLastD k0).time
      · have hall : ∀ k ∈ k0 :: rest, (beforeTime time) k = true := by
          intro k hk
          have := timeSorted_le_getLastD rest k0 hs k hk
          simp only [beforeTime, decide_eq_true_eq]
          linarith
        rw [if_neg h0, if_pos hL, List.takeWhile_eq_self_iff.mpr hall,
          List.dropWhile_eq_nil_iff.mpr hall]
      · have hlast_mem : ((k0 :: rest).getLastD k0) ∈ k0 :: rest := by
          rw [List.getLastD_cons]
          exact List.getLastD_mem_cons rest k0
        have hlt : time < ((k0 :: rest).getLastD k0).time :=
          lt_of_le_of_ne (le_of_not_lt hL) (Ne.symm (hf _ hlast_mem))
        have hrest : rest ≠ [] := by
          intro h
          subst h
          simp [List.getLastD] at hlt
          linarith
        have hlast_mem' : ((k0 :: rest).getLastD k0) ∈ rest := by
          rw [List.getLastD_cons]
          cases rest with
          | nil => exact absurd rfl hrest
          | cons a l => rw [List.getLastD_cons]; exact List.getLastD_mem_cons l a
        have hex : ∃ k ∈ rest, time < k.time := ⟨_, hlast_mem', hlt⟩
        have hf' : ∀ k ∈ rest, k.time ≠ time := fun k h => hf k (List.mem_cons_of_mem _ h)
        rw [if_neg h0, if_neg hL, addKeyLoop_spec time value rest 1 hf' hex,
          List.takeWhile_cons_of_pos hp, List.dropWhile_cons_of_pos hp]
        simp [Nat.add_comm]

/-- Helper: inserting a fresh time into a sorted track keeps it sorted. -/
lemma timeSorted_addKey_fresh {V : Type} {keys : List (TKey V)} {time : ℚ} (value : V)
    (hs : TimeSorted keys) (hf : ∀ k ∈ keys, k.time ≠ time) :
    TimeSorted (addKey keys time value).1 := by
  rw [addKey_sorted_fresh value hs hf]
  unfold TimeSorted
  rw [List.pairwise_append]
  refine ⟨List.Pairwise.sublist (List.takeWhile_sublist _) hs, ?_, ?_⟩
  · rw [List.pairwise_cons]
    exact ⟨fun k hk => dropWhile_time_gt time keys hs hf k hk,
      List.Pairwise.sublist (List.dropWhile_sublist _) hs⟩
  · intro a ha b hb
    have haT : a.time < time := by
      have := List.mem_takeWhile_imp ha
      simpa [beforeTime] using this
    rcases List.mem_cons.mp hb with rfl | hmem
    · exact haT
    · exact lt_trans haT (dropWhile_time_gt time keys hs hf b hmem)

/-- Helper: removing any index keeps a sorted track sorted. -/
lemma timeSorted_removeKey {V : Type} {keys : List (TKey V)} (hs : TimeSorted keys) (i : ℕ) :
    TimeSorted (removeKey keys i) := by
  have hsub : (removeKey keys i).Sublist keys := by
    unfold removeKey
    conv_rhs => rw [← List.take_append_drop i keys]
    refine List.Sublist.append_left ?_ _
    rw [show i + 1 = i + 1 by rfl, ← List.drop_drop]
    exact (List.drop_sublist 1 _).trans (List.Sublist.refl _)
  exact List.Pairwise.sublist hsub hs

/-! ## Claim C5: `addKey` insertion and the sort invariant -/

/-- C5 counterexample: `addKey(0, v)` on a track whose (single, last) key
already has time `0` inserts nothing and returns no index (`undefined`),
refuting the claim that every `addKey(time, value)` inserts the key and
returns the index where it now resides. -/
theorem addKey_no_insert_cx :
    addKey [(⟨0, 0⟩ : TKey ℚ)] 0 1 = ([⟨0, 0⟩], none) := by
  simp [addKey, addKeyLoop, List.getLastD]

/-- C5 (amended): on a track with strictly-sorted key times and a time
distinct from every existing key's time, `addKey` inserts the key at the
unique position keeping times strictly increasing and returns that index;
the sortedness invariant is preserved by the insertion and by every
`removeKey`.  (When the time equals the last key's time, `addKey` inserts
nothing and returns no index; when it equals an earlier key's time, the
duplicate is spliced in right after it.) -/
theorem addKey_fresh_inserts {V : Type} (keys : List (TKey V)) (time : ℚ) (value : V)
    (hs : TimeSorted keys) (hf : ∀ k ∈ keys, k.time ≠ time) :
    (∃ n : ℕ, addKey keys time value = (keys.take n ++ ⟨time, value⟩ :: keys.drop n, some n) ∧
      (addKey keys time value).1.get? n = some ⟨time, value⟩ ∧
      TimeSorted (addKey keys time value).1) ∧
    (∀ i : ℕ, TimeSorted (removeKey keys i)) := by
  refine ⟨?_, timeSorted_removeKey hs⟩
  have hchar := addKey_sorted_fresh value hs hf
  set TW := keys.takeWhile (beforeTime time) with hTW
  set DW := keys.dropWhile (beforeTime time) with hDW
  have htake : keys.take TW.length = TW :=
    (List.prefix_iff_eq_take.mp (List.takeWhile_prefix _)).symm
  have hdrop : keys.drop TW.length = DW := by
    conv_lhs => rw [← List.takeWhile_append_dropWhile (beforeTime time) keys]
    exact List.drop_left' rfl
  refine ⟨TW.length, ?_, ?_, timeSorted_addKey_fresh value hs hf⟩
  · rw [hchar, htake, hdrop]
  · rw [hchar]
    show (TW ++ ⟨time, value⟩ :: DW).get? TW.length = some ⟨time, value⟩
    rw [List.get?_append_right le_rfl, Nat.sub_self]
    rfl

/-- C5 witness: inserting time 5 into the sorted track `{0, 10}`. -/
theorem addKey_fresh_inserts_witness :
    (TimeSorted ([⟨0, 0⟩, ⟨10, 1⟩] : List (TKey ℚ)) ∧
      (∀ k ∈ ([⟨0, 0⟩, ⟨10, 1⟩] : List (TKey ℚ)), k.time ≠ 5)) ∧
    ((∃ n : ℕ, addKey ([⟨0, 0⟩, ⟨10, 1⟩] : List (TKey ℚ)) 5 7 =
        (([⟨0, 0⟩, ⟨10, 1⟩] : List (TKey ℚ)).take n ++ ⟨5, 7⟩ ::
          ([⟨0, 0⟩, ⟨10, 1⟩] : List (TKey ℚ)).drop n, some n) ∧
      (addKey ([⟨0, 0⟩, ⟨10, 1⟩] : List (TKey ℚ)) 5 7).1.get? n = some ⟨5, 7⟩ ∧
      TimeSorted (addKey ([⟨0, 0⟩, ⟨10, 1⟩] : List (TKey ℚ)) 5 7).1) ∧
    (∀ i : ℕ, TimeSorted (removeKey ([⟨0, 0⟩, ⟨10, 1⟩] : List (TKey ℚ)) i))) := by
  have h1 : TimeSorted ([⟨0, 0⟩, ⟨10, 1⟩] : List (TKey ℚ)) := by simp [TimeSorted]
  have h2 : ∀ k ∈ ([⟨0, 0⟩, ⟨10, 1⟩] : List (TKey ℚ)), k.time ≠ 5 := by
    intro k hk
    rcases List.mem_cons.mp hk with rfl | hk
    · norm_num
    · rcases List.mem_cons.mp hk with rfl | hk
      · norm_num
      · simp at hk
  exact ⟨⟨h1, h2⟩, addKey_fresh_inserts _ 5 7 h1 h2⟩

/-! ## Undo/redo roundtrip machinery -/

lemma takeWhile_append_all_none {α : Type} (p : α → Bool) :
    ∀ (A B : List α), (∀ a ∈ A, p a = true) → (∀ b ∈ B, p b = false) →
      (A ++ B).takeWhile p = A ∧ (A ++ B).dropWhile p = B := by
  intro A
  induction A with
  | nil =>
    intro B _ hB
    constructor
    · cases B with
      | nil => rfl
      | cons b bs =>
        rw [List.nil_append, List.takeWhile_cons_of_neg]
        simp [hB b (List.mem_cons_self b bs)]
    · cases B with
      | nil => rfl
      | cons b bs =>
        rw [List.nil_append, List.dropWhile_cons_of_neg]
        simp [hB b (List.mem_cons_self b bs)]
  | cons a A ih =>
    intro B hA hB
    have hpa := hA a (List.mem_cons_self a A)
    have hrec := ih B (fun x h => hA x (List.mem_cons_of_mem _ h)) hB
    rw [List.cons_append, List.takeWhile_cons_of_pos hpa, List.dropWhile_cons_of_pos hpa]
    exact ⟨by rw [hrec.1], hrec.2⟩

lemma mem_take_lt_time {V : Type} {keys : List (TKey V)} (hs : TimeSorted keys) {i : ℕ}
    {k : TKey V} (hk : keys.get? i = some k) : ∀ a ∈ keys.take i, a.time < k.time := by
  intro a ha
  obtain ⟨⟨j, hj⟩, rfl⟩ := List.mem_iff_get.mp ha
  have hj2 : j < i ∧ j < keys.length := by
    have := hj
    rw [List.length_take] at this
    omega
  have hget : keys.get? j = some ((keys.take i).get ⟨j, hj⟩) := by
    rw [List.get?_eq_get hj2.2]
    exact congrArg some (List.get_take keys hj2.2 hj2.1)
  exact timeSorted_get_lt hs hj2.1 hget hk

lemma mem_drop_gt_time {V : Type} {keys : List (TKey V)} (hs : TimeSorted keys) {i : ℕ}
    {k : TKey V} (hk : keys.get? i = some k) :
    ∀ b ∈ keys.drop (i + 1), k.time < b.time := by
  intro b hb
  obtain ⟨⟨j, hj⟩, rfl⟩ := List.mem_iff_get.mp hb
  have hlen : i + 1 + j < keys.length := by
    rw [List.length_drop] at hj
    omega
  have hget : keys.get? (i + 1 + j) = some ((keys.drop (i + 1)).get ⟨j, hj⟩) := by
    rw [List.get?_eq_get hlen]
    exact congrArg some (List.get_drop keys hlen)
  exact timeSorted_get_lt hs (by omega) hk hget

/-- Helper: undoing an `AddKeyChange` whose time was fresh removes exactly
the inserted key. -/
lemma addKey_removeKey {V : Type} {keys : List (TKey V)} {time : ℚ} (value : V)
    (hs : TimeSorted keys) (hf : ∀ k ∈ keys, k.time ≠ time) :
    removeKey (addKey keys time value).1 ((addKey keys time value).2.getD 0) = keys := by
  rw [addKey_sorted_fresh value hs hf]
  show removeKey (keys.takeWhile (beforeTime time) ++ ⟨time, value⟩ ::
      keys.dropWhile (beforeTime time)) (keys.takeWhile (beforeTime time)).length = keys
  unfold removeKey
  rw [List.take_left]
  have hdrop : (keys.takeWhile (beforeTime time) ++ ⟨time, value⟩ ::
      keys.dropWhile (beforeTime time)).drop ((keys.takeWhile (beforeTime time)).length + 1) =
      keys.dropWhile (beforeTime time) := by
    rw [show keys.takeWhile (beforeTime time) ++ ⟨time, value⟩ ::
        keys.dropWhile (beforeTime time) =
        (keys.takeWhile (beforeTime time) ++ [⟨time, value⟩]) ++
          keys.dropWhile (beforeTime time) by simp]
    exact List.drop_left' (by simp)
  rw [hdrop, List.takeWhile_append_dropWhile]

/-- Helper: undoing a `RemoveKeyChange` re-inserts the removed key at its
original index, value and time, restoring the track exactly. -/
lemma removeKey_addKey {V : Type} {keys : List (TKey V)} (hs : TimeSorted keys) {i : ℕ}
    {k : TKey V} (hk : keys.get? i = some k) :
    addKey (removeKey keys i) k.time k.value = (keys, some i) := by
  have hb : i < keys.length := (List.get?_eq_some.mp hk).1
  have htakes := mem_take_lt_time hs hk
  have hdrops := mem_drop_gt_time hs hk
  have hfresh : ∀ k' ∈ removeKey keys i, k'.time ≠ k.time := by
    intro k' hk'
    rcases List.mem_append.mp hk' with h | h
    · exact ne_of_lt (htakes k' h)
    · exact ne_of_gt (hdrops k' h)
  rw [addKey_sorted_fresh _ (timeSorted_removeKey hs i) hfresh]
  have hsplit := takeWhile_append_all_none (beforeTime k.time) (keys.take i)
    (keys.drop (i + 1)) (fun a ha => by simp [beforeTime, htakes a ha])
    (fun b hb' => by simp [beforeTime, asymm (hdrops b hb')])
  show (((keys.take i ++ keys.drop (i + 1)).takeWhile (beforeTime k.time)) ++ ⟨k.time, k.value⟩ ::
      ((keys.take i ++ keys.drop (i + 1)).dropWhile (beforeTime k.time)),
    some ((keys.take i ++ keys.drop (i + 1)).takeWhile (beforeTime k.time)).length) = (keys, some i)
  rw [hsplit.1, hsplit.2]
  have hklen : (keys.take i).length = i := by
    rw [List.length_take]
    exact min_eq_left (le_of_lt hb)
  have hkeq : (⟨k.time, k.value⟩ : TKey V) = k := rfl
  have hkget : keys.get ⟨i, hb⟩ = k := by
    have := List.get?_eq_get hb
    rw [hk] at this
    exact (Option.some.injEq _ _ ▸ this.symm : _)
  rw [hkeq, show k :: keys.drop (i + 1) = keys.drop i by
    rw [List.drop_eq_get_cons hb, hkget], List.take_append_drop, hklen]

/-- Helper: undoing a `KeyChange` restores the stored previous value. -/
lemma setKeyValue_setKeyValue {V : Type} :
    ∀ (keys : List (TKey V)) (i : ℕ) (v pv : V), getKeyValue? keys i = some pv →
      setKeyValue (setKeyValue keys i v) i pv = keys := by
  intro keys
  induction keys with
  | nil => intro i v pv h; simp [getKeyValue?] at h
  | cons k ks ih =>
    intro i v pv h
    cases i with
    | zero =>
      have hpv : k.value = pv := by simpa [getKeyValue?] using h
      rw [← hpv]
      rfl
    | succ n =>
      simp only [getKeyValue?, List.get?_cons_succ] at h
      show k :: setKeyValue (setKeyValue ks n v) n pv = k :: ks
      rw [ih n v pv h]

lemma setKeyValue_time_map {V : Type} :
    ∀ (keys : List (TKey V)) (i : ℕ) (v : V),
      (setKeyValue keys i v).map (·.time) = keys.map (·.time) := by
  intro keys
  induction keys with
  | nil => intro i v; rfl
  | cons k ks ih =>
    intro i v
    cases i with
    | zero => rfl
    | succ n =>
      show k.time :: (setKeyValue ks n v).map (·.time) = k.time :: ks.map (·.time)
      rw [ih n v]

lemma timeSorted_setKeyValue {V : Type} {keys : List (TKey V)} (hs : TimeSorted keys)
    (i : ℕ) (v : V) : TimeSorted (setKeyValue keys i v) := by
  have h1 : (keys.map (·.time)).Pairwise (· < ·) := List.pairwise_map.mpr hs
  have h2 : ((setKeyValue keys i v).map (·.time)).Pairwise (· < ·) := by
    rw [setKeyValue_time_map]
    exact h1
  exact List.pairwise_map.mp h2

/-- Helper: one valid change constructs successfully, keeps the track
sorted, and its `undo` exactly restores the pre-change keys while `redo`
on the restored keys reproduces the post-change keys. -/
lemma applyChange_roundtrip {V : Type} {keys : List (TKey V)} {c : ChangeReq V}
    (hs : TimeSorted keys) (hv : validChange keys c = true) :
    ∃ p, applyChange keys c = some p ∧ TimeSorted p.1 ∧ undoChange p.1 p.2 = keys ∧
      redoChange keys p.2 = p.1 := by
  cases c with
  | add t v =>
    have hf : ∀ k ∈ keys, k.time ≠ t := by
      intro k hk
      have := List.all_eq_true.mp hv k hk
      simpa using this
    exact ⟨((addKey keys t v).1, .add t v (addKey keys t v).2), rfl,
      timeSorted_addKey_fresh v hs hf, addKey_removeKey v hs hf, rfl⟩
  | modify i v =>
    have hb : i < keys.length := by simpa [validChange] using hv
    obtain ⟨k, hk⟩ : ∃ k, keys.get? i = some k := ⟨_, List.get?_eq_get hb⟩
    have hg : getKeyValue? keys i = some k.value := by
      unfold getKeyValue?
      rw [hk]
      rfl
    refine ⟨(setKeyValue keys i v, .modify i k.value v), ?_,
      timeSorted_setKeyValue hs i v, setKeyValue_setKeyValue keys i v k.value hg, rfl⟩
    rw [show applyChange keys (ChangeReq.modify i v) =
        (getKeyValue? keys i).map fun pv => (setKeyValue keys i v, .modify i pv v) from rfl, hg,
      Option.map_some']
  | remove i =>
    have hb : i < keys.length := by simpa [validChange] using hv
    obtain ⟨k, hk⟩ : ∃ k, keys.get? i = some k := ⟨_, List.get?_eq_get hb⟩
    refine ⟨(removeKey keys i, .remove i k.time k.value), ?_, timeSorted_removeKey hs i, ?_, rfl⟩
    · rw [show applyChange keys (ChangeReq.remove i) =
          (keys.get? i).map fun k => (removeKey keys i, .remove i k.time k.value) from rfl, hk,
        Option.map_some']
    · show (addKey (removeKey keys i) k.time k.value).1 = keys
      rw [removeKey_addKey hs hk]

/-- Helper: a valid change sequence constructs successfully and undoing the
collected changes in reverse order restores the initial keys. -/
lemma applySeq_roundtrip {V : Type} :
    ∀ (cs : List (ChangeReq V)) (keys : List (TKey V)), TimeSorted keys →
      validSeq keys cs = true →
      ∃ p, applySeq keys cs = some p ∧ TimeSorted p.1 ∧ undoAll p.1 p.2 = keys := by
  intro cs
  induction cs with
  | nil => intro keys hs _; exact ⟨(keys, []), rfl, hs, rfl⟩
  | cons c cs ih =>
    intro keys hs hv
    rw [validSeq, Bool.and_eq_true] at hv
    obtain ⟨hv1, hv2⟩ := hv
    obtain ⟨p, hp, hps, hpu, _⟩ := applyChange_roundtrip hs hv1
    rw [hp] at hv2
    obtain ⟨q, hq, hqs, hqu⟩ := ih p.1 hps hv2
    refine ⟨(q.1, p.2 :: q.2), ?_, hqs, ?_⟩
    · simp [applySeq, hp, hq]
    · show undoChange (undoAll q.1 q.2) p.2 = keys
      rw [hqu, hpu]

/-! ## Claim C2: undo/redo symmetry -/

/-- C2 counterexample: constructing an `AddKeyChange` at time `0` on a
track whose single key already has time `0` inserts nothing (`addKey`
returns `undefined`), yet its `undo()` — `splice(undefined, 1)`, which
JavaScript coerces to `splice(0, 1)` — deletes the first key, so the undo
does not restore the pre-change track. -/
theorem addKeyChange_undo_cx :
    applyChange [(⟨0, 0⟩ : TKey ℚ)] (ChangeReq.add 0 1) =
      some ([⟨0, 0⟩], AppliedChange.add 0 1 none) ∧
    undoChange [(⟨0, 0⟩ : TKey ℚ)] (AppliedChange.add 0 1 none) = [] := by
  constructor
  · simp [applyChange, addKey, addKeyLoop, List.getLastD]
  · simp [undoChange, removeKey]

/-- C2 (amended): for any sequence of AddKey, ModifyKey and RemoveKey
changes applied to a strictly time-sorted track, in which every AddKey's
time differs from all key times present when it runs and every
ModifyKey/RemoveKey index is in bounds, calling `undo()` on each change in
reverse order restores the track to its exact pre-sequence state; and for
each single such change, `redo()` after `undo()` reproduces the
post-change state.  (Without the freshness proviso the symmetry fails: an
AddKeyChange at an existing last key time inserts nothing and its undo
deletes the first key instead.) -/
theorem trackChangesUndoRedo {V : Type} :
    (∀ (keys : List (TKey V)) (cs : List (ChangeReq V)), TimeSorted keys →
      validSeq keys cs = true →
      ∃ p, applySeq keys cs = some p ∧ undoAll p.1 p.2 = keys) ∧
    (∀ (keys : List (TKey V)) (c : ChangeReq V), TimeSorted keys →
      validChange keys c = true →
      ∃ p, applyChange keys c = some p ∧ undoChange p.1 p.2 = keys ∧
        redoChange (undoChange p.1 p.2) p.2 = p.1) := by
  constructor
  · intro keys cs hs hv
    obtain ⟨p, hp, _, hpu⟩ := applySeq_roundtrip cs keys hs hv
    exact ⟨p, hp, hpu⟩
  · intro keys c hs hv
    obtain ⟨p, hp, _, hpu, hpr⟩ := applyChange_roundtrip hs hv
    refine ⟨p, hp, hpu, ?_⟩
    rw [hpu, hpr]

/-- C2 witness: on the track `{0, 10}`, the sequence add-at-5, modify-0,
remove-2 round-trips, and a single remove-at-1 obeys undo/redo. -/
theorem trackChangesUndoRedo_witness :
    (TimeSorted ([⟨0, 0⟩, ⟨10, 1⟩] : List (TKey ℚ)) ∧
      validSeq ([⟨0, 0⟩, ⟨10, 1⟩] : List (TKey ℚ))
        [ChangeReq.add 5 2, ChangeReq.modify 0 3, ChangeReq.remove 2] = true ∧
      validChange ([⟨0, 0⟩, ⟨10, 1⟩] : List (TKey ℚ)) (ChangeReq.remove 1) = true) ∧
    (∃ p, applySeq ([⟨0, 0⟩, ⟨10, 1⟩] : List (TKey ℚ))
        [ChangeReq.add 5 2, ChangeReq.modify 0 3, ChangeReq.remove 2] = some p ∧
      undoAll p.1 p.2 = ([⟨0, 0⟩, ⟨10, 1⟩] : List (TKey ℚ))) ∧
    (∃ p, applyChange ([⟨0, 0⟩, ⟨10, 1⟩] : List (TKey ℚ)) (ChangeReq.remove 1) = some p ∧
      undoChange p.1 p.2 = ([⟨0, 0⟩, ⟨10, 1⟩] : List (TKey ℚ)) ∧
      redoChange (undoChange p.1 p.2) p.2 = p.1) := by
  have h1 : TimeSorted ([⟨0, 0⟩, ⟨10, 1⟩] : List (TKey ℚ)) := by simp [TimeSorted]
  have h2 : validSeq ([⟨0, 0⟩, ⟨10, 1⟩] : List (TKey ℚ))
      [ChangeReq.add 5 2, ChangeReq.modify 0 3, ChangeReq.remove 2] = true := by decide
  have h3 : validChange ([⟨0, 0⟩, ⟨10, 1⟩] : List (TKey ℚ)) (ChangeReq.remove 1) = true := by
    decide
  exact ⟨⟨h1, h2, h3⟩, trackChangesUndoRedo.1 _ _ h1 h2, trackChangesUndoRedo.2 _ _ h1 h3⟩

/-! ## Claim C4: `XfoTrack.evaluate` -/

lemma headI_get? {V : Type} [Inhabited V] {keys : List (TKey V)} (hne : keys ≠ []) :
    keys.get? 0 = some keys.headI := by
  cases keys with
  | nil => exact absurd rfl hne
  | cons k ks => rfl

lemma getLastD_get? {V : Type} [Inhabited V] {keys : List (TKey V)} (hne : keys ≠ []) :
    keys.get? (keys.length - 1) = some (keys.getLastD default) := by
  have h1 : keys.getLast? = some (keys.getLast hne) := List.getLast?_eq_getLast _ hne
  rw [List.getLastD_eq_getLast?, h1]
  show keys.get? (keys.length - 1) = some (keys.getLast hne)
  rw [← List.getLast?_eq_get?]
  exact h1

lemma xfoTrackEvaluate_of_lerp_zero {O : Type} (oriLerp : O → O → ℚ → O)
    {keys : List (TKey (XfoV O))} {time : ℚ} {n : ℕ} {pn : TKey (XfoV O)}
    (hr : findKeyAndLerp keys time = some ⟨(n : ℤ), 0⟩) (hget : keys.get? n = some pn) :
    xfoTrackEvaluate oriLerp keys time = some pn.value := by
  unfold xfoTrackEvaluate
  rw [hr, Option.some_bind]
  rw [if_neg (by simp : ¬ ((⟨(n : ℤ), 0⟩ : KeyAndLerp).keyIndex < 0))]
  show (keys.get? (n : ℤ).toNat).bind _ = some pn.value
  rw [show ((n : ℤ)).toNat = n from Int.toNat_natCast n, hget, Option.some_bind]
  rw [if_neg (by norm_num : ¬ ((⟨(n : ℤ), 0⟩ : KeyAndLerp).lerp > 0))]

lemma xfoTrackEvaluate_of_lerp_pos {O : Type} (oriLerp : O → O → ℚ → O)
    {keys : List (TKey (XfoV O))} {time : ℚ} {n : ℕ} {l : ℚ} {pn kn : TKey (XfoV O)}
    (hr : findKeyAndLerp keys time = some ⟨(n : ℤ), l⟩) (hl : 0 < l)
    (hget : keys.get? n = some pn) (hget1 : keys.get? (n + 1) = some kn) :
    xfoTrackEvaluate oriLerp keys time =
      some ⟨pn.value.tr.lerp kn.value.tr l, oriLerp pn.value.ori kn.value.ori l⟩ := by
  unfold xfoTrackEvaluate
  rw [hr, Option.some_bind]
  rw [if_neg (by simp : ¬ ((⟨(n : ℤ), l⟩ : KeyAndLerp).keyIndex < 0))]
  show (keys.get? (n : ℤ).toNat).bind _ = _
  rw [show ((n : ℤ)).toNat = n from Int.toNat_natCast n, hget, Option.some_bind]
  rw [if_pos (show (⟨(n : ℤ), l⟩ : KeyAndLerp).lerp > 0 from hl), hget1, Option.some_bind]

/-- C4: for every Pose track with at least one key (and the sorted-track
invariant), `evaluate(time)` returns the exact key value whenever the
located lerp is 0 — in particular the first key's value at or before the
first key's time, the last key's value at or after the last key's time,
and the key's value at the key's exact time — and for a time strictly
between two adjacent keys it returns the pose whose translation is the
linear interpolation of the bracketing translations at the lerp fraction
and whose orientation is the orientation interpolation (the external
`Quat.lerp`, per the spec shortest-arc spherical interpolation) of the
bracketing orientations at that fraction. -/
theorem xfoTrackEvaluate_spec {O : Type} [Inhabited O] (oriLerp : O → O → ℚ → O)
    (keys : List (TKey (XfoV O))) (time : ℚ) (hne : keys ≠ []) (hs : TimeSorted keys) :
    (time ≤ keys.headI.time →
      xfoTrackEvaluate oriLerp keys time = some keys.headI.value) ∧
    ((keys.getLastD default).time ≤ time →
      xfoTrackEvaluate oriLerp keys time = some (keys.getLastD default).value) ∧
    (∀ (n : ℕ) (pn : TKey (XfoV O)), keys.get? n = some pn → time = pn.time →
      xfoTrackEvaluate oriLerp keys time = some pn.value) ∧
    (∀ (n : ℕ) (pn kn : TKey (XfoV O)), keys.get? n = some pn → keys.get? (n + 1) = some kn →
      pn.time < time → time < kn.time →
      xfoTrackEvaluate oriLerp keys time =
        some ⟨pn.value.tr.lerp kn.value.tr ((time - pn.time) / (kn.time - pn.time)),
              oriLerp pn.value.ori kn.value.ori ((time - pn.time) / (kn.time - pn.time))⟩) := by
  obtain ⟨r, hr, _, _, hfirst, hlast, hmid⟩ := findKeyAndLerp_spec_aux keys time hne hs
  have hlen : 0 < keys.length := List.length_pos.mpr hne
  have hfirstEval : time ≤ keys.headI.time →
      xfoTrackEvaluate oriLerp keys time = some keys.headI.value := by
    intro h
    have := hfirst h
    subst this
    exact xfoTrackEvaluate_of_lerp_zero oriLerp (n := 0) (by simpa using hr) (headI_get? hne)
  have hlastEval : (keys.getLastD default).time ≤ time →
      xfoTrackEvaluate oriLerp keys time = some (keys.getLastD default).value := by
    intro h
    have := hlast h
    subst this
    have hcast : ((keys.length : ℤ) - 1) = ((keys.length - 1 : ℕ) : ℤ) := by omega
    exact xfoTrackEvaluate_of_lerp_zero oriLerp (n := keys.length - 1)
      (by rw [hr]; exact congrArg some (by rw [KeyAndLerp.mk.injEq]; exact ⟨hcast, rfl⟩))
      (getLastD_get? hne)
  refine ⟨hfirstEval, hlastEval, ?_, ?_⟩
  · -- exact key time
    intro n pn hget htime
    by_cases hn0 : n = 0
    · subst hn0
      have : pn = keys.headI := by
        rw [headI_get? hne] at hget
        exact (Option.some.inj hget).symm
      subst this
      exact hfirstEval (le_of_eq htime)
    · by_cases hnlast : n + 1 = keys.length
      · have : pn = keys.getLastD default := by
          have h2 := getLastD_get? hne
          rw [show keys.length - 1 = n by omega] at h2
          rw [h2] at hget
          exact (Option.some.inj hget).symm
        subst this
        exact hlastEval (le_of_eq htime.symm)
      · have hb : n < keys.length := (List.get?_eq_some.mp hget).1
        have hb1 : n + 1 < keys.length := by omega
        obtain ⟨kn, hkn⟩ : ∃ kn, keys.get? (n + 1) = some kn := ⟨_, List.get?_eq_get hb1⟩
        have hlow : keys.headI.time < time := by
          rw [htime]
          exact timeSorted_get_lt hs (Nat.pos_of_ne_zero hn0) (headI_get? hne) hget
        have hup : time < (keys.getLastD default).time := by
          rw [htime]
          have hlt : pn.time < kn.time := timeSorted_get_lt hs (Nat.lt_succ_self n) hget hkn
          rcases eq_or_lt_of_le (show n + 1 ≤ keys.length - 1 by omega) with he | hl
          · have h2 := getLastD_get? hne
            rw [← he] at h2
            rw [h2] at hkn
            rw [Option.some.inj hkn]
            exact hlt
          · have h2 := getLastD_get? hne
            exact lt_trans hlt (timeSorted_get_lt hs hl hkn h2)
        obtain ⟨m, pm, km, hm, hm1, hm2, hm3, hm4⟩ := hmid hlow hup
        have hmn : m = n := bracket_unique hs hm hm1 hget hkn hm2 hm3 (le_of_eq htime.symm)
          (htime ▸ timeSorted_get_lt hs (Nat.lt_succ_self n) hget hkn)
        subst hmn
        have hpm : pm = pn := by rw [hm] at hget; exact Option.some.inj hget.symm |>.symm
        subst hpm
        have hlz : (time - pm.time) / (km.time - pm.time) = 0 := by
          rw [htime, sub_self, zero_div]
        rw [hlz] at hm4
        subst hm4
        exact xfoTrackEvaluate_of_lerp_zero oriLerp hr hget
  · -- strictly between two keys
    intro n pn kn hget hget1 hlt1 hlt2
    have hb : n < keys.length := (List.get?_eq_some.mp hget).1
    have hb1 : n + 1 < keys.length := (List.get?_eq_some.mp hget1).1
    have hlow : keys.headI.time < time := by
      rcases Nat.eq_zero_or_pos n with rfl | hpos
      · have : pn = keys.headI := by
          rw [headI_get? hne] at hget
          exact (Option.some.inj hget).symm
        rw [← this]
        exact hlt1
      · exact lt_trans (timeSorted_get_lt hs hpos (headI_get? hne) hget) hlt1
    have hup : time < (keys.getLastD default).time := by
      have h2 := getLastD_get? hne
      rcases eq_or_lt_of_le (show n + 1 ≤ keys.length - 1 by omega) with he | hl
      · rw [← he] at h2
        rw [h2] at hget1
        rw [Option.some.inj hget1]
        exact hlt2
      · exact lt_trans hlt2 (timeSorted_get_lt hs hl hget1 h2)
    obtain ⟨m, pm, km, hm, hm1, hm2, hm3, hm4⟩ := hmid hlow hup
    have hmn : m = n := bracket_unique hs hm hm1 hget hget1 hm2 hm3 (le_of_lt hlt1) hlt2
    subst hmn
    have hpm : pm = pn := by rw [hm] at hget; exact Option.some.inj hget
    have hkm : km = kn := by rw [hm1] at hget1; exact Option.some.inj hget1
    subst hpm
    subst hkm
    subst hm4
    have hlp : 0 < (time - pm.time) / (km.time - pm.time) :=
      div_pos (by linarith) (by linarith)
    exact xfoTrackEvaluate_of_lerp_pos oriLerp hr hlp hget hget1

/-- C4 witness: the track `{0: pose A, 1000: pose B}` evaluated at time
500 (between keys), with translation blend at fraction 1/2; the same
theorem instance also clamps at times `-100` and `2000`. -/
theorem xfoTrackEvaluate_spec_witness :
    (([⟨0, ⟨⟨0, 0, 0⟩, 0⟩⟩, ⟨1000, ⟨⟨2, 0, 0⟩, 1⟩⟩] : List (TKey (XfoV ℚ))) ≠ [] ∧
      TimeSorted ([⟨0, ⟨⟨0, 0, 0⟩, 0⟩⟩, ⟨1000, ⟨⟨2, 0, 0⟩, 1⟩⟩] : List (TKey (XfoV ℚ)))) ∧
    ((500 : ℚ) ≤ ([⟨0, ⟨⟨0, 0, 0⟩, 0⟩⟩, ⟨1000, ⟨⟨2, 0, 0⟩, 1⟩⟩] :
        List (TKey (XfoV ℚ))).headI.time →
      xfoTrackEvaluate (fun a b t => a + (b - a) * t)
          ([⟨0, ⟨⟨0, 0, 0⟩, 0⟩⟩, ⟨1000, ⟨⟨2, 0, 0⟩, 1⟩⟩] : List (TKey (XfoV ℚ))) 500 =
        some ([⟨0, ⟨⟨0, 0, 0⟩, 0⟩⟩, ⟨1000, ⟨⟨2, 0, 0⟩, 1⟩⟩] :
          List (TKey (XfoV ℚ))).headI.value) ∧
    ((([⟨0, ⟨⟨0, 0, 0⟩, 0⟩⟩, ⟨1000, ⟨⟨2, 0, 0⟩, 1⟩⟩] :
        List (TKey (XfoV ℚ))).getLastD default).time ≤ 500 →
      xfoTrackEvaluate (fun a b t => a + (b - a) * t)
          ([⟨0, ⟨⟨0, 0, 0⟩, 0⟩⟩, ⟨1000, ⟨⟨2, 0, 0⟩, 1⟩⟩] : List (TKey (XfoV ℚ))) 500 =
        some (([⟨0, ⟨⟨0, 0, 0⟩, 0⟩⟩, ⟨1000, ⟨⟨2, 0, 0⟩, 1⟩⟩] :
          List (TKey (XfoV ℚ))).getLastD default).value) ∧
    (∀ (n : ℕ) (pn : TKey (XfoV ℚ)),
      ([⟨0, ⟨⟨0, 0, 0⟩, 0⟩⟩, ⟨1000, ⟨⟨2, 0, 0⟩, 1⟩⟩] : List (TKey (XfoV ℚ))).get? n = some pn →
      (500 : ℚ) = pn.time →
      xfoTrackEvaluate (fun a b t => a + (b - a) * t)
          ([⟨0, ⟨⟨0, 0, 0⟩, 0⟩⟩, ⟨1000, ⟨⟨2, 0, 0⟩, 1⟩⟩] : List (TKey (XfoV ℚ))) 500 =
        some pn.value) ∧
    (∀ (n : ℕ) (pn kn : TKey (XfoV ℚ)),
      ([⟨0, ⟨⟨0, 0, 0⟩, 0⟩⟩, ⟨1000, ⟨⟨2, 0, 0⟩, 1⟩⟩] : List (TKey (XfoV ℚ))).get? n = some pn →
      ([⟨0, ⟨⟨0, 0, 0⟩, 0⟩⟩, ⟨1000, ⟨⟨2, 0, 0⟩, 1⟩⟩] :
        List (TKey (XfoV ℚ))).get? (n + 1) = some kn →
      pn.time < 500 → (500 : ℚ) < kn.time →
      xfoTrackEvaluate (fun a b t => a + (b - a) * t)
          ([⟨0, ⟨⟨0, 0, 0⟩, 0⟩⟩, ⟨1000, ⟨⟨2, 0, 0⟩, 1⟩⟩] : List (TKey (XfoV ℚ))) 500 =
        some ⟨pn.value.tr.lerp kn.value.tr ((500 - pn.time) / (kn.time - pn.time)),
              (fun a b t => a + (b - a) * t) pn.value.ori kn.value.ori
                ((500 - pn.time) / (kn.time - pn.time))⟩) := by
  have h1 : ([⟨0, ⟨⟨0, 0, 0⟩, 0⟩⟩, ⟨1000, ⟨⟨2, 0, 0⟩, 1⟩⟩] : List (TKey (XfoV ℚ))) ≠ [] := by
    simp
  have h2 : TimeSorted ([⟨0, ⟨⟨0, 0, 0⟩, 0⟩⟩, ⟨1000, ⟨⟨2, 0, 0⟩, 1⟩⟩] :
      List (TKey (XfoV ℚ))) := by
    simp [TimeSorted]
  exact ⟨⟨h1, h2⟩, xfoTrackEvaluate_spec (fun a b t => a + (b - a) * t) _ 500 h1 h2⟩

/-! ## Claim C6: `AttachmentConstraint.findTarget` -/

lemma getLastD_get?_any {α : Type} {l : List α} (h : l ≠ []) (d : α) :
    l.get? (l.length - 1) = some (l.getLastD d) := by
  rw [List.getLastD_eq_getLast?, List.getLast?_eq_getLast _ h]
  show l.get? (l.length - 1) = some (l.getLast h)
  rw [← List.getLast?_eq_get?]
  exact List.getLast?_eq_getLast _ h

/-- Helper: specification of the `findTarget` scan, in the style of
`findKeyLoop_spec`. -/
lemma findTargetLoop_spec {G : Type} (time : ℚ) :
    ∀ (ts front : List (AttachTargetE G)) (prev : AttachTargetE G),
      prev.time ≤ time →
      (∃ t ∈ ts, time < t.time) →
      ∃ (n : ℕ) (pn tn : AttachTargetE G),
        (front ++ prev :: ts).get? n = some pn ∧
        (front ++ prev :: ts).get? (n + 1) = some tn ∧
        pn.time ≤ time ∧ time < tn.time ∧
        findTargetLoop time ts (front.length + 1) = some (n : ℤ) := by
  intro ts
  induction ts with
  | nil => intro front prev _ hex; simp at hex
  | cons t ts ih =>
    intro front prev hle hex
    by_cases ht : time < t.time
    · refine ⟨front.length, prev, t, ?_, ?_, hle, ht, ?_⟩
      · rw [List.get?_append_right le_rfl, Nat.sub_self]; rfl
      · rw [List.get?_append_right (Nat.le_succ_of_le le_rfl), Nat.succ_sub le_rfl,
          Nat.sub_self]
        rfl
      · simp only [findTargetLoop, gt_iff_lt, if_pos ht]
        congr 1
        push_cast
        ring
    · have hle' : t.time ≤ time := le_of_not_lt ht
      have hex' : ∃ t' ∈ ts, time < t'.time := by
        obtain ⟨t', ht', htt⟩ := hex
        rcases List.mem_cons.mp ht' with rfl | hmem
        · exact absurd htt ht
        · exact ⟨t', hmem, htt⟩
      obtain ⟨n, pn, tn, h1, h2, h3, h4, h5⟩ := ih (front ++ [prev]) t hle' hex'
      rw [List.append_assoc, List.singleton_append] at h1 h2
      refine ⟨n, pn, tn, h1, h2, h3, h4, ?_⟩
      simp only [findTargetLoop, gt_iff_lt, if_neg ht]
      rw [List.length_append, List.length_singleton] at h5
      exact h5

/-- C6 counterexample: with a single target activating at time `10`,
`findTarget(10)` returns `-1` (the guard is `time <= first activation`),
although `10` is not before the first activation time — so at a target's
exact activation time the target is not yet selected, contradicting the
claim that `-1` is returned exactly when the time is before the first
activation and that at an activation time the target's index is returned. -/
theorem findTarget_at_activation_cx :
    findTarget [(⟨0, 10, none⟩ : AttachTargetE ℚ)] 10 = some (-1) ∧ ¬ ((10 : ℚ) < 10) :=
  ⟨by simp [findTarget], by norm_num⟩

/-- C6 (amended): for a time-sorted target list, `findTarget(time)` returns
`-1` exactly when there are no targets or `time` is at or before the first
target's activation time (so at the first target's exact activation time it
returns `-1`, not `0`); otherwise it returns the index of the latest target
whose activation time is `≤ time` — in particular at the activation time of
any later target, that target's index is returned. -/
theorem findTarget_spec {G : Type} (targets : List (AttachTargetE G)) (time : ℚ)
    (hs : targets.Pairwise (fun a b => a.time < b.time)) :
    (targets = [] → findTarget targets time = some (-1)) ∧
    (∀ t0, targets.head? = some t0 → time ≤ t0.time → findTarget targets time = some (-1)) ∧
    (∀ t0, targets.head? = some t0 → t0.time < time →
      ∃ n : ℕ, findTarget targets time = some (n : ℤ) ∧
        (∃ tn, targets.get? n = some tn ∧ tn.time ≤ time) ∧
        (∀ tn1, targets.get? (n + 1) = some tn1 → time < tn1.time)) := by
  cases targets with
  | nil => exact ⟨fun _ => rfl, fun t0 h => by simp at h, fun t0 h => by simp at h⟩
  | cons t0 rest =>
    refine ⟨fun h => by simp at h, ?_, ?_⟩
    · intro t0x h0 hle
      rw [List.head?_cons] at h0
      obtain rfl := Option.some.inj h0
      show (if time ≤ t0.time then some (-1)
        else if time ≥ ((t0 :: rest).getLastD t0).time then some (((t0 :: rest).length : ℤ) - 1)
        else findTargetLoop time rest 1) = some (-1)
      rw [if_pos hle]
    · intro t0x h0 hlt
      rw [List.head?_cons] at h0
      obtain rfl := Option.some.inj h0
      have hnle : ¬ time ≤ t0.time := not_le.mpr hlt
      by_cases hL : time ≥ ((t0 :: rest).getLastD t0).time
      · refine ⟨(t0 :: rest).length - 1, ?_, ?_, ?_⟩
        · show (if time ≤ t0.time then some (-1)
            else if time ≥ ((t0 :: rest).getLastD t0).time then
              some (((t0 :: rest).length : ℤ) - 1)
            else findTargetLoop time rest 1) = some (((t0 :: rest).length - 1 : ℕ) : ℤ)
          rw [if_neg hnle, if_pos hL]
          congr 1
          simp
        · exact ⟨(t0 :: rest).getLastD t0,
            getLastD_get?_any (List.cons_ne_nil t0 rest) t0, hL⟩
        · intro tn1 h
          exfalso
          have hlen : (t0 :: rest).length - 1 + 1 = (t0 :: rest).length := by simp
          rw [hlen] at h
          have := (List.get?_eq_some.mp h).1
          omega
      · have hlt2 : time < ((t0 :: rest).getLastD t0).time := lt_of_not_le hL
        have hrest : rest ≠ [] := by
          intro h
          subst h
          simp [List.getLastD] at hlt2
          linarith
        have hmem : ((t0 :: rest).getLastD t0) ∈ rest := by
          rw [List.getLastD_cons]
          cases rest with
          | nil => exact absurd rfl hrest
          | cons a l => rw [List.getLastD_cons]; exact List.getLastD_mem_cons l a
        obtain ⟨n, pn, tn, h1, h2, h3, h4, h5⟩ :=
          findTargetLoop_spec time rest [] t0 (le_of_lt hlt) ⟨_, hmem, hlt2⟩
        rw [List.nil_append] at h1 h2
        refine ⟨n, ?_, ⟨pn, h1, h3⟩, ?_⟩
        · show (if time ≤ t0.time then some (-1)
            else if time ≥ ((t0 :: rest).getLastD t0).time then
              some (((t0 :: rest).length : ℤ) - 1)
            else findTargetLoop time rest 1) = some ((n : ℕ) : ℤ)
          rw [if_neg hnle, if_neg hL]
          simpa using h5
        · intro tn1 h
          rw [h2] at h
          rw [← Option.some.inj h]
          exact h4

/-- C6 witness: two targets activating at times 1 and 5, queried at 3. -/
theorem findTarget_spec_witness :
    ([(⟨0, 1, none⟩ : AttachTargetE ℚ), ⟨0, 5, none⟩].Pairwise
      (fun a b => a.time < b.time)) ∧
    (([(⟨0, 1, none⟩ : AttachTargetE ℚ), ⟨0, 5, none⟩] = [] →
      findTarget [(⟨0, 1, none⟩ : AttachTargetE ℚ), ⟨0, 5, none⟩] 3 = some (-1)) ∧
    (∀ t0, ([(⟨0, 1, none⟩ : AttachTargetE ℚ), ⟨0, 5, none⟩]).head? = some t0 →
      (3 : ℚ) ≤ t0.time →
      findTarget [(⟨0, 1, none⟩ : AttachTargetE ℚ), ⟨0, 5, none⟩] 3 = some (-1)) ∧
    (∀ t0, ([(⟨0, 1, none⟩ : AttachTargetE ℚ), ⟨0, 5, none⟩]).head? = some t0 →
      t0.time < 3 →
      ∃ n : ℕ, findTarget [(⟨0, 1, none⟩ : AttachTargetE ℚ), ⟨0, 5, none⟩] 3 = some (n : ℤ) ∧
        (∃ tn, ([(⟨0, 1, none⟩ : AttachTargetE ℚ), ⟨0, 5, none⟩]).get? n = some tn ∧
          tn.time ≤ 3) ∧
        (∀ tn1, ([(⟨0, 1, none⟩ : AttachTargetE ℚ), ⟨0, 5, none⟩]).get? (n + 1) = some tn1 →
          (3 : ℚ) < tn1.time))) := by
  have h1 : ([(⟨0, 1, none⟩ : AttachTargetE ℚ), ⟨0, 5, none⟩].Pairwise
      (fun a b => a.time < b.time)) := by simp
  exact ⟨h1, findTarget_spec _ 3 h1⟩

/-! ## Claim C1: attachment continuity -/

/-- C1: at every `evaluate()` at which the active target index switches,
the output pose written after the switch equals the output pose before the
switch, under exact pose arithmetic: on first-ever activation the cached
offset is `inverse(newTargetPose) * currentOutputPose` and the written
output `newTargetPose * offset` equals the current output pose unchanged;
on a later switch the offset is
`inverse(newTargetPose) * (previousTargetPose * previousOffset)` and the
written output equals `previousTargetPose * previousOffset`, the pose the
previous target's formula yields at the same instant. -/
theorem attachmentContinuity {G : Type} [Group G] (s : AttachState G) (time : ℚ) (outVal : G)
    (n : ℤ) (hfind : findTarget s.attachTargets time = some n) (hn : ¬ n = -1)
    (att : AttachTargetE G) (hatt : s.attachTargets.get? n.toNat = some att)
    (hoff : att.offsetXfo = none) (hsw : ¬ n = s.attachId) :
    (s.attachId = -1 →
      ∃ s', attachmentEvaluate s time outVal = some (s', outVal)) ∧
    (∀ (p : ℕ) (prevA : AttachTargetE G) (prevOff : G), s.attachId = (p : ℤ) →
      s.attachTargets.get? p = some prevA → prevA.offsetXfo = some prevOff →
      ∃ s', attachmentEvaluate s time outVal = some (s', prevA.val * prevOff)) := by
  constructor
  · intro hid
    refine ⟨⟨setOffsetAt s.attachTargets n.toNat (att.val⁻¹ * outVal), n⟩, ?_⟩
    unfold attachmentEvaluate
    rw [hfind, Option.some_bind, if_neg hn, hatt, Option.some_bind, if_pos hsw, hoff]
    show (if s.attachId = -1 then _ else _) = _
    rw [if_pos hid]
    simp only [mul_inv_cancel_left]
  · intro p prevA prevOff hid hprev hprevOff
    refine ⟨⟨setOffsetAt s.attachTargets n.toNat (att.val⁻¹ * (prevA.val * prevOff)), n⟩, ?_⟩
    unfold attachmentEvaluate
    rw [hfind, Option.some_bind, if_neg hn, hatt, Option.some_bind, if_pos hsw, hoff]
    show (if s.attachId = -1 then _ else _) = _
    rw [if_neg (by rw [hid]; omega)]
    rw [show s.attachId.toNat = p by rw [hid]; exact Int.toNat_natCast p, hprev,
      Option.some_bind, hprevOff, Option.some_bind]
    simp only [mul_inv_cancel_left]

/-- C1 witness: two targets with activation times 1 and 5 over the pose
group `Multiplicative ℚ`; a switch from target 0 (cached offset) to target
1 at time 6 writes exactly the previous target's pose times its offset. -/
theorem attachmentContinuity_witness :
    (findTarget [(⟨Multiplicative.ofAdd (2 : ℚ), 1, some (Multiplicative.ofAdd (5 : ℚ))⟩ :
        AttachTargetE (Multiplicative ℚ)), ⟨Multiplicative.ofAdd (3 : ℚ), 5, none⟩] 6 =
      some 1) ∧
    (∃ s', attachmentEvaluate
        (⟨[(⟨Multiplicative.ofAdd (2 : ℚ), 1, some (Multiplicative.ofAdd (5 : ℚ))⟩ :
            AttachTargetE (Multiplicative ℚ)), ⟨Multiplicative.ofAdd (3 : ℚ), 5, none⟩], 0⟩ :
          AttachState (Multiplicative ℚ)) 6 (Multiplicative.ofAdd (9 : ℚ)) =
      some (s', Multiplicative.ofAdd (2 : ℚ) * Multiplicative.ofAdd (5 : ℚ))) := by
  have hfind : findTarget [(⟨Multiplicative.ofAdd (2 : ℚ), 1,
      some (Multiplicative.ofAdd (5 : ℚ))⟩ : AttachTargetE (Multiplicative ℚ)),
      ⟨Multiplicative.ofAdd (3 : ℚ), 5, none⟩] 6 = some 1 := by
    norm_num [findTarget, List.getLastD]
  refine ⟨hfind, ?_⟩
  exact (attachmentContinuity
    (⟨[(⟨Multiplicative.ofAdd (2 : ℚ), 1, some (Multiplicative.ofAdd (5 : ℚ))⟩ :
        AttachTargetE (Multiplicative ℚ)), ⟨Multiplicative.ofAdd (3 : ℚ), 5, none⟩], 0⟩ :
      AttachState (Multiplicative ℚ)) 6 (Multiplicative.ofAdd (9 : ℚ)) 1 hfind (by norm_num)
    ⟨Multiplicative.ofAdd (3 : ℚ), 5, none⟩ rfl rfl (by norm_num)).2 0
    ⟨Multiplicative.ofAdd (2 : ℚ), 1, some (Multiplicative.ofAdd (5 : ℚ))⟩
    (Multiplicative.ofAdd (5 : ℚ)) rfl rfl rfl

/-! ## Real vector algebra toolkit for the triangle solver -/

lemma cross3_c0 (u v : V3) : cross3 u v 0 = u 1 * v 2 - u 2 * v 1 := rfl

lemma cross3_c1 (u v : V3) : cross3 u v 1 = u 2 * v 0 - u 0 * v 2 := rfl

lemma cross3_c2 (u v : V3) : cross3 u v 2 = u 0 * v 1 - u 1 * v 0 := rfl

lemma dot3_nonneg (v : V3) : 0 ≤ dot3 v v := by
  unfold dot3
  nlinarith [mul_self_nonneg (v 0), mul_self_nonneg (v 1), mul_self_nonneg (v 2)]

lemma vlen_nonneg (v : V3) : 0 ≤ vlen v := Real.sqrt_nonneg _

lemma vlen_mul_self (v : V3) : vlen v * vlen v = dot3 v v :=
  Real.mul_self_sqrt (dot3_nonneg v)

lemma dot3_self_eq_zero {v : V3} (h : dot3 v v = 0) : v = 0 := by
  unfold dot3 at h
  have h0 : v 0 * v 0 = 0 := by
    nlinarith [mul_self_nonneg (v 0), mul_self_nonneg (v 1), mul_self_nonneg (v 2)]
  have h1 : v 1 * v 1 = 0 := by
    nlinarith [mul_self_nonneg (v 0), mul_self_nonneg (v 1), mul_self_nonneg (v 2)]
  have h2 : v 2 * v 2 = 0 := by
    nlinarith [mul_self_nonneg (v 0), mul_self_nonneg (v 1), mul_self_nonneg (v 2)]
  funext i
  fin_cases i
  · simpa using mul_self_eq_zero.mp h0
  · simpa using mul_self_eq_zero.mp h1
  · simpa using mul_self_eq_zero.mp h2

lemma vlen_smul (r : ℝ) (v : V3) : vlen (r • v) = |r| * vlen v := by
  unfold vlen
  have h : dot3 (r • v) (r • v) = r ^ 2 * dot3 v v := by
    unfold dot3
    simp only [Pi.smul_apply, smul_eq_mul]
    ring
  rw [h, Real.sqrt_mul (sq_nonneg r), Real.sqrt_sq_eq_abs]

lemma smul_vnormalize {v : V3} (h : vlen v ≠ 0) : vlen v • vnormalize v = v := by
  unfold vnormalize
  rw [smul_smul, mul_inv_cancel₀ h, one_smul]

lemma vlen_vnormalize {v : V3} (h : vlen v ≠ 0) : vlen (vnormalize v) = 1 := by
  unfold vnormalize
  rw [vlen_smul, abs_inv, abs_of_nonneg (vlen_nonneg v), inv_mul_cancel₀ h]

lemma dot3_vnormalize_self {v : V3} (h : vlen v ≠ 0) :
    dot3 (vnormalize v) (vnormalize v) = 1 := by
  rw [← vlen_mul_self, vlen_vnormalize h, one_mul]

lemma dot3_smul_left (r : ℝ) (u v : V3) : dot3 (r • u) v = r * dot3 u v := by
  unfold dot3
  simp only [Pi.smul_apply, smul_eq_mul]
  ring

lemma dot3_smul_right (r : ℝ) (u v : V3) : dot3 u (r • v) = r * dot3 u v := by
  unfold dot3
  simp only [Pi.smul_apply, smul_eq_mul]
  ring

lemma dot3_add_right (u v w : V3) : dot3 u (v + w) = dot3 u v + dot3 u w := by
  unfold dot3
  simp only [Pi.add_apply]
  ring

lemma dot3_add_add (x y : V3) :
    dot3 (x + y) (x + y) = dot3 x x + 2 * dot3 x y + dot3 y y := by
  unfold dot3
  simp only [Pi.add_apply]
  ring

lemma dot3_sub_sub (u w : V3) :
    dot3 (u - w) (u - w) = dot3 u u - 2 * dot3 u w + dot3 w w := by
  unfold dot3
  simp only [Pi.sub_apply]
  ring

lemma dot3_cross_self (u v : V3) :
    dot3 (cross3 u v) (cross3 u v) = dot3 u u * dot3 v v - dot3 u v * dot3 u v := by
  unfold dot3
  simp only [cross3_c0, cross3_c1, cross3_c2]
  ring

lemma dot3_cross_right (u v : V3) : dot3 (cross3 u v) v = 0 := by
  unfold dot3
  simp only [cross3_c0, cross3_c1, cross3_c2]
  ring

lemma dot3_self_cross (n v : V3) : dot3 v (cross3 n v) = 0 := by
  unfold dot3
  simp only [cross3_c0, cross3_c1, cross3_c2]
  ring

lemma dot3_triple (u v : V3) :
    dot3 u (cross3 (cross3 u v) v) = dot3 u v * dot3 u v - dot3 u u * dot3 v v := by
  unfold dot3
  simp only [cross3_c0, cross3_c1, cross3_c2]
  ring

lemma dot3_cross_smul_smul (x : V3) (r t : ℝ) (n v : V3) :
    dot3 x (cross3 (r • n) (t • v)) = r * t * dot3 x (cross3 n v) := by
  unfold dot3
  simp only [cross3_c0, cross3_c1, cross3_c2, Pi.smul_apply, smul_eq_mul]
  ring

set_option maxHeartbeats 1000000 in
/-- Helper: the law-of-cosines core of the triangle solver.  Rotating the
bone vector `J` (of length `a`) about the unit axis perpendicular to the
normalized target and bone directions, by the difference between the
law-of-cosines angle and the current angle, puts its endpoint at distance
exactly `c` from the target point `u0` (at distance `b` from the joint). -/
lemma triangleIK_core (u0 J : V3) (a b c : ℝ)
    (hJ : vlen J = a) (hU : vlen u0 = b)
    (ha : 0 < a) (hb : 0 < b) (hc : 0 < c)
    (hlo : |a - c| ≤ b) (hhi : b ≤ a + c)
    (hnd : cross3 (vnormalize u0) (vnormalize J) ≠ 0) :
    vlen (u0 - rodrigues (vnormalize (cross3 (vnormalize u0) (vnormalize J)))
      (Real.arccos ((a * a + b * b - c * c) / (2 * a * b)) -
        Real.arccos (dot3 (vnormalize u0) (vnormalize J))) J) = c := by
  have hbne : vlen u0 ≠ 0 := by rw [hU]; exact ne_of_gt hb
  have hane : vlen J ≠ 0 := by rw [hJ]; exact ne_of_gt ha
  set uhat := vnormalize u0 with huhat
  set vhat := vnormalize J with hvhat
  have huu : dot3 uhat uhat = 1 := dot3_vnormalize_self hbne
  have hvv : dot3 vhat vhat = 1 := dot3_vnormalize_self hane
  set d := dot3 uhat vhat with hd
  set nvec := cross3 uhat vhat with hnv
  have hlag : dot3 nvec nvec = 1 - d * d := by
    rw [hnv, dot3_cross_self, huu, hvv, ← hd]
    ring
  have hd2 : d * d ≤ 1 := by nlinarith [dot3_nonneg nvec]
  have hdlo : -1 ≤ d := by nlinarith
  have hdhi : d ≤ 1 := by nlinarith
  set s := vlen nvec with hs
  have hsnn : 0 ≤ s := vlen_nonneg _
  have hss : s * s = 1 - d * d := by rw [hs, vlen_mul_self, hlag]
  have hsne : s ≠ 0 := by
    intro h0
    apply hnd
    have hz : dot3 nvec nvec = 0 := by
      rw [← vlen_mul_self, ← hs, h0, mul_zero]
    exact dot3_self_eq_zero hz
  have hspos : 0 < s := lt_of_le_of_ne hsnn (Ne.symm hsne)
  have hcosd : Real.cos (Real.arccos d) = d := Real.cos_arccos hdlo hdhi
  have hsind : Real.sin (Real.arccos d) = s := by
    rw [Real.sin_arccos]
    rw [show 1 - d ^ 2 = s * s by rw [hss]; ring]
    exact Real.sqrt_mul_self hsnn
  have h2ab : (0 : ℝ) < 2 * a * b := by positivity
  have habs := abs_le.mp hlo
  have hr_le : (a * a + b * b - c * c) / (2 * a * b) ≤ 1 := by
    rw [div_le_one h2ab]
    nlinarith [mul_nonneg (by linarith : (0 : ℝ) ≤ c - a + b)
      (by linarith : (0 : ℝ) ≤ c + a - b)]
  have hr_ge : -1 ≤ (a * a + b * b - c * c) / (2 * a * b) := by
    rw [le_div_iff h2ab]
    nlinarith [mul_nonneg (by linarith : (0 : ℝ) ≤ a + b - c)
      (by linarith : (0 : ℝ) ≤ a + b + c)]
  have hcosr : Real.cos (Real.arccos ((a * a + b * b - c * c) / (2 * a * b))) =
      (a * a + b * b - c * c) / (2 * a * b) := Real.cos_arccos hr_ge hr_le
  set nhat := vnormalize nvec with hnh
  have hnn1 : dot3 nhat nhat = 1 := dot3_vnormalize_self hsne
  have hnv0 : dot3 nhat vhat = 0 := by
    rw [hnh]
    show dot3 ((vlen nvec)⁻¹ • nvec) vhat = 0
    rw [dot3_smul_left, hnv, dot3_cross_right, mul_zero]
  have hJv : J = vlen J • vhat := (smul_vnormalize hane).symm
  have hnJ : dot3 nhat J = 0 := by
    conv_lhs => rw [hJv]
    rw [dot3_smul_right, hnv0, mul_zero]
  set φ := Real.arccos ((a * a + b * b - c * c) / (2 * a * b)) - Real.arccos d with hphi
  have hwdecomp : rodrigues nhat φ J = Real.cos φ • J + Real.sin φ • cross3 nhat J := by
    unfold rodrigues
    rw [hnJ, mul_zero, zero_smul, add_zero]
  have hJJ : dot3 J J = a * a := by rw [← vlen_mul_self, hJ]
  have hU2 : dot3 u0 u0 = b * b := by rw [← vlen_mul_self, hU]
  have hJcross : dot3 J (cross3 nhat J) = 0 := dot3_self_cross nhat J
  have hcrossJJ : dot3 (cross3 nhat J) (cross3 nhat J) = a * a := by
    rw [dot3_cross_self, hnn1, hJJ, hnJ]
    ring
  have hwW : dot3 (rodrigues nhat φ J) (rodrigues nhat φ J) = a * a := by
    rw [hwdecomp, dot3_add_add]
    have e1 : dot3 (Real.cos φ • J) (Real.cos φ • J) = Real.cos φ * Real.cos φ * (a * a) := by
      rw [dot3_smul_left, dot3_smul_right, hJJ]
      ring
    have e2 : dot3 (Real.cos φ • J) (Real.sin φ • cross3 nhat J) = 0 := by
      rw [dot3_smul_left, dot3_smul_right, hJcross]
      ring
    have e3 : dot3 (Real.sin φ • cross3 nhat J) (Real.sin φ • cross3 nhat J) =
        Real.sin φ * Real.sin φ * (a * a) := by
      rw [dot3_smul_left, dot3_smul_right, hcrossJJ]
      ring
    rw [e1, e2, e3]
    linear_combination (a * a) * Real.sin_sq_add_cos_sq φ
  have hu0J : dot3 u0 J = b * a * d := by
    have hu0' : u0 = vlen u0 • uhat := (smul_vnormalize hbne).symm
    conv_lhs => rw [hu0', hJv]
    rw [dot3_smul_left, dot3_smul_right, hU, hJ, ← hd]
    ring
  have hu0cross : dot3 u0 (cross3 nhat J) = -(b * a * s) := by
    have hstep : cross3 nhat J = cross3 ((vlen nvec)⁻¹ • nvec) (vlen J • vhat) := by
      rw [hnh]
      conv_lhs => rw [hJv]
      rfl
    have htrip : dot3 uhat (cross3 nvec vhat) = d * d - 1 := by
      rw [hnv, dot3_triple, ← hd, huu, hvv]
      ring
    have hu0' : u0 = vlen u0 • uhat := (smul_vnormalize hbne).symm
    calc dot3 u0 (cross3 nhat J)
        = dot3 u0 (cross3 ((vlen nvec)⁻¹ • nvec) (vlen J • vhat)) := by rw [← hstep]
      _ = (vlen nvec)⁻¹ * vlen J * dot3 u0 (cross3 nvec vhat) := by
          rw [dot3_cross_smul_smul]
      _ = (vlen nvec)⁻¹ * vlen J * (vlen u0 * dot3 uhat (cross3 nvec vhat)) := by
          conv_lhs => rw [hu0']
          rw [dot3_smul_left]
      _ = s⁻¹ * a * (b * (d * d - 1)) := by rw [← hs, hJ, hU, htrip]
      _ = s⁻¹ * a * (b * (-(s * s))) := by rw [hss]; ring
      _ = -(b * a * s) := by field_simp; ring
  have hcosφd : Real.cos φ * d - Real.sin φ * s =
      (a * a + b * b - c * c) / (2 * a * b) := by
    rw [← hcosd, ← hsind, ← Real.cos_add]
    rw [show φ + Real.arccos d = Real.arccos ((a * a + b * b - c * c) / (2 * a * b)) by
      rw [hphi]; ring]
    exact hcosr
  have hu0w : dot3 u0 (rodrigues nhat φ J) = b * a * ((a * a + b * b - c * c) / (2 * a * b)) := by
    rw [hwdecomp, dot3_add_right, dot3_smul_right, dot3_smul_right, hu0J, hu0cross]
    calc Real.cos φ * (b * a * d) + Real.sin φ * -(b * a * s)
        = b * a * (Real.cos φ * d - Real.sin φ * s) := by ring
      _ = b * a * ((a * a + b * b - c * c) / (2 * a * b)) := by rw [hcosφd]
  have hDD : dot3 (u0 - rodrigues nhat φ J) (u0 - rodrigues nhat φ J) = c * c := by
    rw [dot3_sub_sub, hU2, hu0w, hwW]
    field_simp
    ring
  rw [show vlen (u0 - rodrigues nhat φ J) =
    Real.sqrt (dot3 (u0 - rodrigues nhat φ J) (u0 - rodrigues nhat φ J)) from rfl, hDD]
  exact Real.sqrt_mul_self hc.le

/-! ## Claim C9: the two-bone solver -/

lemma v3_c0 (x y z : ℝ) : v3 x y z 0 = x := rfl

lemma v3_c1 (x y z : ℝ) : v3 x y z 1 = y := rfl

lemma v3_c2 (x y z : ℝ) : v3 x y z 2 = z := rfl

lemma v3_zero : v3 0 0 0 = 0 := by
  funext i
  fin_cases i <;> rfl

lemma v3_sub (x y z a b c : ℝ) :
    v3 x y z - v3 a b c = v3 (x - a) (y - b) (z - c) := by
  funext i
  fin_cases i <;> rfl

lemma v3_add (x y z a b c : ℝ) :
    v3 x y z + v3 a b c = v3 (x + a) (y + b) (z + c) := by
  funext i
  fin_cases i <;> rfl

lemma v3_smul (r x y z : ℝ) : r • v3 x y z = v3 (r * x) (r * y) (r * z) := by
  funext i
  fin_cases i <;> rfl

lemma dot3_v3 (x y z a b c : ℝ) :
    dot3 (v3 x y z) (v3 a b c) = x * a + y * b + z * c := rfl

lemma cross3_v3 (x y z a b c : ℝ) :
    cross3 (v3 x y z) (v3 a b c) =
      v3 (y * c - z * b) (z * a - x * c) (x * b - y * a) := by
  funext i
  fin_cases i <;> rfl

lemma vlen_v3 (x y z : ℝ) :
    vlen (v3 x y z) = Real.sqrt (x * x + y * y + z * z) := rfl

lemma cross3_zero_left (v : V3) : cross3 0 v = 0 := by
  funext i
  unfold cross3
  simp

lemma dot3_zero_left (v : V3) : dot3 0 v = 0 := by
  unfold dot3
  simp

lemma vnormalize_zero : vnormalize (0 : V3) = 0 := by
  unfold vnormalize
  exact smul_zero _

/-- C9 (amended): with positive cached bone lengths, a target distinct
from joint0 whose distance from joint0 lies within `[|L0-L1|, L0+L1]`,
and a current bone direction not parallel to the joint0-to-target
direction, one `evaluate()` of the two-bone `TriangleIKSolver` places the
chain tip exactly at the target. -/
theorem triangleIK_reaches_target (joint0tr joint01Vec targetTr : V3) (L0 L1 : ℝ)
    (hlen : vlen joint01Vec = L0) (hL0 : 0 < L0) (hL1 : 0 < L1)
    (hb : 0 < vlen (targetTr - joint0tr))
    (hlo : |L0 - L1| ≤ vlen (targetTr - joint0tr))
    (hhi : vlen (targetTr - joint0tr) ≤ L0 + L1)
    (hnd : cross3 (vnormalize (targetTr - joint0tr)) (vnormalize joint01Vec) ≠ 0) :
    triangleIKTip joint0tr joint01Vec L0 L1 targetTr = targetTr := by
  have hcore := triangleIK_core (targetTr - joint0tr) joint01Vec L0
    (vlen (targetTr - joint0tr)) L1 hlen rfl hL0 hb hL1 hlo hhi hnd
  simp only [triangleIKTip, triangleIKJoint1Tr]
  set w := rodrigues
    (vnormalize (cross3 (vnormalize (targetTr - joint0tr)) (vnormalize joint01Vec)))
    (Real.arccos ((L0 * L0 + vlen (targetTr - joint0tr) * vlen (targetTr - joint0tr) -
        L1 * L1) / (2 * L0 * vlen (targetTr - joint0tr))) -
      Real.arccos (dot3 (vnormalize (targetTr - joint0tr)) (vnormalize joint01Vec)))
    joint01Vec with hw
  rw [sub_add_eq_sub_sub]
  have hne : vlen (targetTr - joint0tr - w) ≠ 0 := by
    rw [hcore]
    exact ne_of_gt hL1
  rw [← hcore, smul_vnormalize hne]
  abel

/-- C9 witness: Joint0 at the origin, current bone vector `(0,1,0)`,
`L0 = L1 = 1`, target `(1,1,0)` at distance `√2 ∈ [0, 2]` with a
non-parallel bone direction: the solver reaches the target exactly. -/
theorem triangleIK_reaches_target_witness :
    vlen (v3 0 1 0) = 1 ∧
    0 < vlen (v3 1 1 0 - v3 0 0 0) ∧
    |(1 : ℝ) - 1| ≤ vlen (v3 1 1 0 - v3 0 0 0) ∧
    vlen (v3 1 1 0 - v3 0 0 0) ≤ 1 + 1 ∧
    cross3 (vnormalize (v3 1 1 0 - v3 0 0 0)) (vnormalize (v3 0 1 0)) ≠ 0 ∧
    triangleIKTip (v3 0 0 0) (v3 0 1 0) 1 1 (v3 1 1 0) = v3 1 1 0 := by
  have hTT : Real.sqrt 2 * Real.sqrt 2 = 2 := Real.mul_self_sqrt (by norm_num)
  have hT0 : (0 : ℝ) < Real.sqrt 2 := Real.sqrt_pos.mpr (by norm_num)
  have hlen : vlen (v3 0 1 0) = 1 := by
    rw [vlen_v3, show ((0 : ℝ) * 0 + 1 * 1 + 0 * 0) = 1 from by ring, Real.sqrt_one]
  have hsub1 : v3 1 1 0 - v3 0 0 0 = v3 1 1 0 := by
    rw [v3_sub, sub_zero, sub_zero]
  have hu : vlen (v3 1 1 0 - v3 0 0 0) = Real.sqrt 2 := by
    rw [hsub1, vlen_v3, show ((1 : ℝ) * 1 + 1 * 1 + 0 * 0) = 2 from by ring]
  have hb : 0 < vlen (v3 1 1 0 - v3 0 0 0) := by
    rw [hu]
    exact hT0
  have hlo : |(1 : ℝ) - 1| ≤ vlen (v3 1 1 0 - v3 0 0 0) := by
    rw [hu]
    simpa using Real.sqrt_nonneg 2
  have hhi : vlen (v3 1 1 0 - v3 0 0 0) ≤ 1 + 1 := by
    rw [hu]
    nlinarith [Real.sqrt_nonneg 2]
  have hnd : cross3 (vnormalize (v3 1 1 0 - v3 0 0 0)) (vnormalize (v3 0 1 0)) ≠ 0 := by
    have hV : cross3 (vnormalize (v3 1 1 0 - v3 0 0 0)) (vnormalize (v3 0 1 0)) 2 =
        (Real.sqrt 2)⁻¹ := by
      unfold vnormalize
      rw [hu, hlen, hsub1, inv_one, one_smul, v3_smul, cross3_c2]
      simp only [v3_c0, v3_c1]
      norm_num
    intro h
    rw [h] at hV
    have h0V : (0 : ℝ) = (Real.sqrt 2)⁻¹ := hV
    have h02 : (0 : ℝ) < (Real.sqrt 2)⁻¹ := by positivity
    linarith
  exact ⟨hlen, hb, hlo, hhi, hnd,
    triangleIK_reaches_target (v3 0 0 0) (v3 0 1 0) (v3 1 1 0) 1 1
      hlen one_pos one_pos hb hlo hhi hnd⟩

/-- C9 counterexample: the claim quantifies over every target whose
distance from Joint0 lies within `[|L0-L1|, L0+L1]`, but when the current
bone direction is parallel to the joint0-to-target direction the computed
rotation axis is the normalization of the zero cross product and the
solver degenerates (`NaN` in floating point): with Joint0 at the origin,
bone vector `(1,0,0)`, `L0 = L1 = 1` and the in-range target `(√2,0,0)`,
the computed tip is `(1+1/√2, 0, 0) ≠ (√2, 0, 0)`. -/
theorem triangleIK_degenerate_cx :
    vlen (v3 1 0 0) = 1 ∧
    |(1 : ℝ) - 1| ≤ vlen (v3 (Real.sqrt 2) 0 0 - v3 0 0 0) ∧
    vlen (v3 (Real.sqrt 2) 0 0 - v3 0 0 0) ≤ 1 + 1 ∧
    triangleIKTip (v3 0 0 0) (v3 1 0 0) 1 1 (v3 (Real.sqrt 2) 0 0) ≠ v3 (Real.sqrt 2) 0 0 := by
  have hT0 : (0 : ℝ) < Real.sqrt 2 := Real.sqrt_pos.mpr (by norm_num)
  have hTne : Real.sqrt 2 ≠ 0 := ne_of_gt hT0
  have hTT : Real.sqrt 2 * Real.sqrt 2 = 2 := Real.mul_self_sqrt (by norm_num)
  have hT1 : (1 : ℝ) ≤ Real.sqrt 2 := by nlinarith
  have hj01len : vlen (v3 1 0 0) = 1 := by
    rw [vlen_v3, show ((1 : ℝ) * 1 + 0 * 0 + 0 * 0) = 1 from by ring, Real.sqrt_one]
  have hsub0 : v3 (Real.sqrt 2) 0 0 - v3 0 0 0 = v3 (Real.sqrt 2) 0 0 := by
    rw [v3_sub, sub_zero, sub_zero]
  have hrad : Real.sqrt 2 * Real.sqrt 2 + 0 * 0 + 0 * 0 = 2 := by
    rw [hTT]
    ring
  have hu0len : vlen (v3 (Real.sqrt 2) 0 0 - v3 0 0 0) = Real.sqrt 2 := by
    rw [hsub0, vlen_v3, hrad]
  refine ⟨hj01len, ?_, ?_, ?_⟩
  · rw [hu0len]
    simpa using Real.sqrt_nonneg 2
  · rw [hu0len]
    nlinarith [Real.sqrt_nonneg 2]
  -- the solver's internal quantities at this input
  have hunu : vnormalize (v3 (Real.sqrt 2) 0 0 - v3 0 0 0) = v3 1 0 0 := by
    unfold vnormalize
    rw [hu0len, hsub0, v3_smul, inv_mul_cancel₀ hTne, mul_zero]
  have hunJ : vnormalize (v3 1 0 0) = v3 1 0 0 := by
    unfold vnormalize
    rw [hj01len, inv_one, one_smul]
  have hdval : dot3 (vnormalize (v3 (Real.sqrt 2) 0 0 - v3 0 0 0)) (vnormalize (v3 1 0 0)) =
      1 := by
    rw [hunu, hunJ, dot3_v3]
    ring
  have harccos1 :
      Real.arccos (dot3 (vnormalize (v3 (Real.sqrt 2) 0 0 - v3 0 0 0))
        (vnormalize (v3 1 0 0))) = 0 := by
    rw [hdval]
    exact Real.arccos_one
  have hnval : cross3 (vnormalize (v3 (Real.sqrt 2) 0 0 - v3 0 0 0)) (vnormalize (v3 1 0 0)) =
      0 := by
    rw [hunu, hunJ, cross3_v3, show ((0 : ℝ) * 0 - 0 * 0) = 0 from by ring,
      show ((0 : ℝ) * 1 - 1 * 0) = 0 from by ring,
      show ((1 : ℝ) * 0 - 0 * 1) = 0 from by ring, v3_zero]
  have hrval : (1 * 1 + vlen (v3 (Real.sqrt 2) 0 0 - v3 0 0 0) *
      vlen (v3 (Real.sqrt 2) 0 0 - v3 0 0 0) - 1 * 1) /
      (2 * 1 * vlen (v3 (Real.sqrt 2) 0 0 - v3 0 0 0)) = (Real.sqrt 2)⁻¹ := by
    rw [hu0len, hTT]
    field_simp
  have hbound1 : (0 : ℝ) ≤ (Real.sqrt 2)⁻¹ := by positivity
  have hbound2 : (Real.sqrt 2)⁻¹ ≤ 1 := by
    rw [inv_le_one_iff₀]
    right
    exact hT1
  have hcosval : Real.cos (Real.arccos ((Real.sqrt 2)⁻¹) - 0) = (Real.sqrt 2)⁻¹ := by
    rw [sub_zero]
    exact Real.cos_arccos (by linarith) hbound2
  have hrod : rodrigues (vnormalize (0 : V3)) (Real.arccos ((Real.sqrt 2)⁻¹) - 0) (v3 1 0 0) =
      (Real.sqrt 2)⁻¹ • v3 1 0 0 := by
    rw [vnormalize_zero]
    unfold rodrigues
    rw [cross3_zero_left, dot3_zero_left, smul_zero, mul_zero, zero_smul, add_zero, add_zero,
      hcosval]
  have htip : triangleIKTip (v3 0 0 0) (v3 1 0 0) 1 1 (v3 (Real.sqrt 2) 0 0) =
      (v3 0 0 0 + (Real.sqrt 2)⁻¹ • v3 1 0 0) + (1 : ℝ) • vnormalize (v3 (Real.sqrt 2) 0 0 -
        (v3 0 0 0 + (Real.sqrt 2)⁻¹ • v3 1 0 0)) := by
    simp only [triangleIKTip, triangleIKJoint1Tr]
    rw [hnval, harccos1, hrval, hrod]
  -- the degenerate joint1 position and the resulting tip, in closed form
  have hj1 : v3 0 0 0 + (Real.sqrt 2)⁻¹ • v3 1 0 0 = v3 ((Real.sqrt 2)⁻¹) 0 0 := by
    rw [v3_smul, mul_one, mul_zero, v3_add, zero_add, zero_add]
  have hkey : Real.sqrt 2 - (Real.sqrt 2)⁻¹ = (Real.sqrt 2)⁻¹ := by
    field_simp
    linarith [hTT]
  have hdiff : v3 (Real.sqrt 2) 0 0 - v3 ((Real.sqrt 2)⁻¹) 0 0 = v3 ((Real.sqrt 2)⁻¹) 0 0 := by
    rw [v3_sub, hkey, sub_zero]
  have hvd : vlen (v3 ((Real.sqrt 2)⁻¹) 0 0) = (Real.sqrt 2)⁻¹ := by
    rw [vlen_v3,
      show ((Real.sqrt 2)⁻¹ * (Real.sqrt 2)⁻¹ + 0 * 0 + 0 * 0) =
        (Real.sqrt 2)⁻¹ * (Real.sqrt 2)⁻¹ from by ring]
    exact Real.sqrt_mul_self hbound1
  have hnd2 : vnormalize (v3 ((Real.sqrt 2)⁻¹) 0 0) = v3 1 0 0 := by
    unfold vnormalize
    rw [hvd, v3_smul, inv_inv, mul_inv_cancel₀ hTne, mul_zero]
  have htip2 : triangleIKTip (v3 0 0 0) (v3 1 0 0) 1 1 (v3 (Real.sqrt 2) 0 0) =
      v3 ((Real.sqrt 2)⁻¹ + 1) 0 0 := by
    rw [htip, hj1, hdiff, hnd2, one_smul, v3_add, add_zero]
  rw [htip2]
  intro heq
  have h0 := congrFun heq 0
  simp only [v3_c0] at h0
  -- h0 : (√2)⁻¹ + 1 = √2; multiplying by √2 forces √2 = 1, contradicting √2·√2 = 2
  have hm : ((Real.sqrt 2)⁻¹ + 1) * Real.sqrt 2 = Real.sqrt 2 * Real.sqrt 2 := by
    rw [h0]
  rw [add_mul, inv_mul_cancel₀ hTne, one_mul, hTT] at hm
  have hsq1 : Real.sqrt 2 = 1 := by linarith
  rw [hsq1] at hTT
  norm_num at hTT

/-! ## Claim C10: sampling an empty track -/

/-- C10: when the sampled track has zero keys, `TrackSampler.evaluate()`
does not evaluate the track; it re-writes the output port's existing value
unchanged and never faults, leaving the downstream pose exactly as it was. -/
theorem trackSampler_empty_track {O : Type} (oriLerp : O → O → ℚ → O) (time : ℚ)
    (outputValue : XfoV O) :
    trackSamplerEvaluate oriLerp [] time outputValue = some outputValue := rfl

/-! ## Claim C8: the explode displacement formula -/

/-- C8 counterexample: with `multiplier = 2` and `offset = 1` (uniform
mode, one stage, full explode, unit distance and timing `[0,1]`), the code
displaces by `(1 * linStep + 1) * 2 = 4` along the axis, while the claim's
formula `explodeDistance * linStep * multiplier + offset` gives `3`: the
offset is added before, not after, the multiplication by the multiplier. -/
theorem explode_offset_order_cx :
    evaluateExplodePart true 0 1 0 1 2 ⟨1, 0, 0⟩ 1 1 1 false false none ⟨0, 0, 0⟩ =
      some ⟨4, 0, 0⟩ ∧
    claimedExplodeDisplacement 0 1 0 1 2 1 1 1 false false = 3 ∧ (4 : ℚ) ≠ 3 := by
  refine ⟨?_, ?_, by norm_num⟩ <;>
    · simp [evaluateExplodePart, claimedExplodeDisplacement, linStep]
      norm_num

/-- C8 (amended): for every explode part whose output is connected (and no
`RelativeTo` parent), one `evaluate()` displaces the part's output
translation along its configured axis by exactly
`(explodeDistance * linearStep(t0, t1, f(stage, stages, explode, cascade,
centered)) [* stageFactor] + offset) * multiplier` — the offset term is
added before the multiplication by the multiplier, with `f` in cascade mode
`max(0, explode - stage/stages)` (`0.5` subtracted when centered) and in
uniform mode the `linStep` of `explode` weighted by
`t = 1 - stage/stages` (`- 0.5` when centered). -/
theorem explodePart_displacement (stage stages movementX movementY multiplier : ℚ)
    (axis : Vec3Q) (explode explodeDist offset : ℚ) (cascade centered : Bool) (outTr : Vec3Q) :
    evaluateExplodePart true stage stages movementX movementY multiplier axis explode explodeDist
        offset cascade centered none outTr =
      some (outTr + explodeDisplacement stage stages movementX movementY multiplier explode
          explodeDist offset cascade centered • axis) := rfl

/-! ## Claim C7: unconnected-output guards -/

/-- C7 counterexample: `RamAndPistonOperator.evaluate` has no connectivity
guard — with its `Ram` output unconnected it still writes to it (here with
placeholder external quaternion operations over `O := ℚ`), refuting the
claim that every operator's evaluation never writes to an unconnected
output. -/
theorem ramAndPiston_unconnected_write_cx :
    ¬ (∀ ram piston : PortE (XfoV ℚ),
        ram.connected = false →
          ((evaluateRamAndPiston id (fun _ _ => (0 : ℚ)) (fun a b => a + b)
              (fun _ => ⟨1, 0, 0⟩) (fun _ => ⟨0, 1, 0⟩) (fun _ => ⟨0, 0, 1⟩) 0 0
              ram piston).1.2 = false)) := by
  intro h
  have h2 := h ⟨false, ⟨⟨0, 0, 0⟩, 0⟩⟩ ⟨false, ⟨⟨0, 0, 0⟩, 0⟩⟩ rfl
  simp [evaluateRamAndPiston] at h2

/-- C7 (amended): the unconnected-output no-op holds where the code checks
`isConnected` — the per-gear guard of `GearsOperator.evaluate`, the guard
of `ExplodePartParameter.evaluate`, and the rod/cap guards of
`PistonParameter.evaluate` — but not universally: `RamAndPistonOperator`
and `TriangleIKSolver` read, recompute and write their outputs
unconditionally, regardless of the connection flags. -/
theorem unconnected_output_guards :
    (∀ (O : Type) (axisAngle : Vec3Q → ℝ → O) (oriMul : O → O → O) (revolutions : ℚ)
        (gear : GearE) (v : XfoV O),
        evaluateGear axisAngle oriMul revolutions gear ⟨false, v⟩ = (⟨false, v⟩, false)) ∧
    (∀ (stage stages movementX movementY multiplier : ℚ) (axis : Vec3Q)
        (explode explodeDist offset : ℚ) (cascade centered : Bool)
        (parentDelta : Option ((Vec3Q → Vec3Q) × (Vec3Q → Vec3Q))) (outTr : Vec3Q),
        evaluateExplodePart false stage stages movementX movementY multiplier axis explode
          explodeDist offset cascade centered parentDelta outTr = none) ∧
    (∀ (O : Type) (rotateVec : O → V3 → V3) (axisAngle3 : V3 → ℝ → O) (oriMul : O → O → O)
        (quat : O) (crankAxis : V3) (revolutions camPhase camLength rodLength : ℝ)
        (baseCrankTr camVec pistonAxis : V3) (pistonOffset : ℝ) (rv cv : V3 × O),
        evaluatePistonParam rotateVec axisAngle3 oriMul quat crankAxis revolutions camPhase
            camLength rodLength baseCrankTr camVec pistonAxis pistonOffset ⟨false, rv⟩ ⟨false, cv⟩ =
          ((⟨false, rv⟩, false), (⟨false, cv⟩, false))) ∧
    (∀ (O : Type) (normalizeV : Vec3Q → Vec3Q) (setFrom2 : Vec3Q → Vec3Q → O)
        (oriMul : O → O → O) (getX getY getZ : O → Vec3Q) (identO : O) (axis : ℕ)
        (ram piston : PortE (XfoV O)),
        (evaluateRamAndPiston normalizeV setFrom2 oriMul getX getY getZ identO axis
            ram piston).1.2 = true ∧
        (evaluateRamAndPiston normalizeV setFrom2 oriMul getX getY getZ identO axis
            ram piston).2.2 = true) ∧
    (∀ (joint01Vec : V3) (joint0Length joint1Length : ℝ) (targetTr : V3) (j0 j1 : PortE V3),
        (triangleIKEvaluatePorts joint01Vec joint0Length joint1Length targetTr j0 j1).1.2 = true ∧
        (triangleIKEvaluatePorts joint01Vec joint0Length joint1Length targetTr j0 j1).2.2 = true) := by
  refine ⟨fun O aA oM r g v => rfl, fun _ _ _ _ _ _ _ _ _ _ _ _ _ => rfl,
    fun O rV aA oM q cA r cP cL rL bC cV pA pO rv cv => ?_,
    fun O nV sF oM gX gY gZ iO a ram piston => ⟨rfl, rfl⟩,
    fun j01 L0 L1 t j0 j1 => ⟨rfl, rfl⟩⟩
  simp [evaluatePistonParam]

end RobotAnim
